import Mathlib

/-!
Verification of the EVM assembly backend
(`libyul/backends/evm/EVMAssembly.cpp`, solidity 0.5.17).

The assembler state (`EVMAssembly`) is embedded shallowly: the byte
buffer `m_bytecode` is a `List Nat` of bytes, the `std::map`s become
association lists with `lookupM`/`insertM` (insertion preserves the
position of an existing key and otherwise appends; for the label
reference table the keys are registered in strictly increasing order in
every reachable state, so iteration in list order coincides with the
`std::map` key order), and fatal `yulAssert` failures become `none`
results.  The external instruction encoder (`libevmasm/Instruction.h`,
not part of this core) is modelled from the spec.
-/

/-- Big-endian byte encoding of `v` in exactly `n` bytes
(`toBigEndian` of `libdevcore`): byte `i` is `(v >>> 8*(n-1-i)) &&& 0xff`. -/
def toBigEndian : Nat → Nat → List Nat
  | 0, _ => []
  | n + 1, v => toBigEndian n (v / 256) ++ [v % 256]

/-- Value of a big-endian byte list. -/
def fromBigEndian : List Nat → Nat
  | [] => 0
  | x :: xs => x * 256 ^ xs.length + fromBigEndian xs

/-- Number of bytes needed to represent `v` (the loop counting
`v >>>= 8` steps in `toCompactBigEndian`). -/
def byteLength (v : Nat) : Nat :=
  if v = 0 then 0 else byteLength (v / 256) + 1
decreasing_by exact Nat.div_lt_self (Nat.pos_of_ne_zero (by assumption)) (by decide)

/-- `dev::toCompactBigEndian(v, min)`: the big-endian bytes of `v`, padded
to at least `min` bytes, with no leading zero byte beyond the padding. -/
def toCompactBigEndian (v : Nat) (min : Nat) : List Nat :=
  toBigEndian (max min (byteLength v)) v

/-- Overwrite the bytes of `b` starting at `pos` with the list `xs`
(the patch loop of `updateReference`, writing index `pos + i` for each
`i` below the reference size). -/
def setBytes (b : List Nat) (pos : Nat) : List Nat → List Nat
  | [] => b
  | x :: xs => setBytes (b.set pos x) (pos + 1) xs

/-- Read `n` bytes of `b` starting at `pos` as a big-endian integer. -/
def readBE (b : List Nat) (pos : Nat) : Nat → Nat
  | 0 => 0
  | n + 1 => b.getD pos 0 * 256 ^ n + readBE b (pos + 1) n

theorem toBigEndian_length (n v : Nat) : (toBigEndian n v).length = n := by
  induction n generalizing v with
  | zero => rfl
  | succ n ih => simp [toBigEndian, ih]

theorem fromBigEndian_append_singleton (l : List Nat) (x : Nat) :
    fromBigEndian (l ++ [x]) = fromBigEndian l * 256 + x := by
  induction l with
  | nil => simp [fromBigEndian]
  | cons y ys ih =>
      simp [fromBigEndian, ih, pow_succ]
      ring

theorem fromBigEndian_toBigEndian (n v : Nat) (h : v < 256 ^ n) :
    fromBigEndian (toBigEndian n v) = v := by
  induction n generalizing v with
  | zero =>
      have hv : v = 0 := Nat.lt_one_iff.mp (by simpa using h)
      subst hv
      rfl
  | succ n ih =>
      have hdiv : v / 256 < 256 ^ n := by
        rw [Nat.div_lt_iff_lt_mul (by norm_num)]
        calc v < 256 ^ (n + 1) := h
        _ = 256 ^ n * 256 := by ring
      rw [toBigEndian, fromBigEndian_append_singleton, ih _ hdiv]
      omega

theorem fromBigEndian_lt (l : List Nat) (h : ∀ x ∈ l, x < 256) :
    fromBigEndian l < 256 ^ l.length := by
  induction l with
  | nil => simp [fromBigEndian]
  | cons x xs ih =>
      have hx : x < 256 := h x (by simp)
      have hxs := ih (fun y hy => h y (by simp [hy]))
      simp only [fromBigEndian, List.length_cons, pow_succ]
      calc x * 256 ^ xs.length + fromBigEndian xs
          < x * 256 ^ xs.length + 256 ^ xs.length := by omega
        _ = (x + 1) * 256 ^ xs.length := by ring
        _ ≤ 256 * 256 ^ xs.length := by
            exact Nat.mul_le_mul_right _ (by omega)
        _ = 256 ^ xs.length * 256 := by ring

theorem setBytes_length (xs : List Nat) (b : List Nat) (pos : Nat) :
    (setBytes b pos xs).length = b.length := by
  induction xs generalizing b pos with
  | nil => rfl
  | cons x xs ih => simp [setBytes, ih]

/-- Pointwise characterisation of `setBytes`: inside the written window
(and in bounds) the written bytes are read back, elsewhere the buffer is
untouched. -/
theorem setBytes_getElem? (xs : List Nat) (b : List Nat) (pos j : Nat) :
    (setBytes b pos xs)[j]? =
      if pos ≤ j ∧ j < pos + xs.length ∧ j < b.length
      then xs[j - pos]? else b[j]? := by
  induction xs generalizing b pos with
  | nil =>
      simp only [setBytes, List.length_nil, Nat.add_zero]
      rw [if_neg (by omega)]
  | cons x xs ih =>
      rw [setBytes, ih]
      have hlen : (b.set pos x).length = b.length := by simp
      by_cases hj : j = pos
      · subst hj
        by_cases hb : j < b.length
        · simp only [hlen, List.length_cons]
          rw [if_neg (by omega), if_pos (by omega)]
          rw [List.getElem?_set_self hb, Nat.sub_self, List.getElem?_cons_zero]
        · simp only [hlen, List.length_cons]
          rw [if_neg (by omega), if_neg (by omega)]
          rw [List.getElem?_set]
          rw [if_pos rfl, if_neg hb]
          exact (List.getElem?_eq_none (by omega)).symm
      · rw [List.getElem?_set_ne (by omega)]
        simp only [hlen, List.length_cons]
        by_cases hin : pos ≤ j ∧ j < pos + (xs.length + 1) ∧ j < b.length
        · rw [if_pos (by omega), if_pos hin]
          have hs : j - pos = (j - (pos + 1)) + 1 := by omega
          rw [hs, List.getElem?_cons_succ]
        · rw [if_neg (by omega), if_neg hin]

theorem readBE_congr (b b' : List Nat) (pos n : Nat)
    (h : ∀ j, pos ≤ j → j < pos + n → b'[j]? = b[j]?) :
    readBE b' pos n = readBE b pos n := by
  induction n generalizing pos with
  | zero => rfl
  | succ n ih =>
      rw [readBE, readBE]
      rw [List.getD_eq_getElem?_getD, List.getD_eq_getElem?_getD]
      rw [h pos (le_refl pos) (by omega)]
      rw [ih (pos + 1) (fun j h1 h2 => h j (by omega) (by omega))]

theorem readBE_setBytes (xs : List Nat) (b : List Nat) (pos : Nat)
    (hb : pos + xs.length ≤ b.length) :
    readBE (setBytes b pos xs) pos xs.length = fromBigEndian xs := by
  induction xs generalizing b pos with
  | nil => rfl
  | cons x xs ih =>
      rw [setBytes]
      have hpos : pos < b.length := by simp at hb; omega
      rw [List.length_cons, readBE]
      have hhead : (setBytes (b.set pos x) (pos + 1) xs)[pos]? = some x := by
        rw [setBytes_getElem?, if_neg (by omega)]
        exact List.getElem?_set_self hpos
      rw [List.getD_eq_getElem?_getD, hhead]
      rw [ih (b.set pos x) (pos + 1)
        (by simp only [List.length_set]; simp only [List.length_cons] at hb; omega)]
      rfl

theorem setBytes_frame (xs : List Nat) (b : List Nat) (pos j : Nat)
    (h : j < pos ∨ pos + xs.length ≤ j) :
    (setBytes b pos xs)[j]? = b[j]? := by
  rw [setBytes_getElem?, if_neg (by omega)]

theorem byteLength_zero : byteLength 0 = 0 := by
  rw [byteLength]
  simp

theorem byteLength_pos (v : Nat) (h : 0 < v) : 0 < byteLength v := by
  rw [byteLength, if_neg (by omega)]
  omega

theorem lt_pow_byteLength (v : Nat) : v < 256 ^ byteLength v := by
  induction v using Nat.strong_induction_on with
  | _ v ih =>
      by_cases h : v = 0
      · subst h
        simp [byteLength_zero]
      · rw [byteLength, if_neg h]
        have hdiv : v / 256 < v := Nat.div_lt_self (Nat.pos_of_ne_zero h) (by decide)
        have := ih (v / 256) hdiv
        rw [pow_succ]
        have h2 : v / 256 + 1 ≤ 256 ^ byteLength (v / 256) := this
        calc v < 256 * (v / 256) + 256 := by
                have := Nat.div_add_mod v 256
                have := @Nat.mod_lt v 256 (by decide)
                omega
          _ ≤ 256 ^ byteLength (v / 256) * 256 := by
                have := Nat.mul_le_mul_left 256 h2
                omega

theorem pow_pred_byteLength_le (v : Nat) (h : 0 < v) :
    256 ^ (byteLength v - 1) ≤ v := by
  induction v using Nat.strong_induction_on with
  | _ v ih =>
      rw [byteLength, if_neg (by omega)]
      simp only [Nat.add_sub_cancel]
      by_cases h2 : v / 256 = 0
      · rw [h2, byteLength_zero]
        simpa using h
      · have hdiv : v / 256 < v := Nat.div_lt_self h (by decide)
        have hle := ih (v / 256) hdiv (Nat.pos_of_ne_zero h2)
        have h1 : 1 ≤ byteLength (v / 256) := byteLength_pos _ (Nat.pos_of_ne_zero h2)
        calc 256 ^ byteLength (v / 256)
            = 256 ^ (byteLength (v / 256) - 1) * 256 := by
              rw [← pow_succ]
              congr 1
              omega
          _ ≤ (v / 256) * 256 := Nat.mul_le_mul_right _ hle
          _ ≤ v := by
              have := Nat.div_add_mod v 256
              omega

/-- Minimality of `byteLength`: no shorter width can hold `v`. -/
theorem byteLength_minimal (v u : Nat) (h : v < 256 ^ u) : byteLength v ≤ u := by
  by_contra hcon
  have hu : u ≤ byteLength v - 1 := by omega
  have hv : 0 < v := by
    rcases Nat.eq_zero_or_pos v with h0 | h0
    · subst h0
      simp [byteLength_zero] at hcon
    · exact h0
  have := pow_pred_byteLength_le v hv
  have hpow : 256 ^ u ≤ 256 ^ (byteLength v - 1) :=
    Nat.pow_le_pow_right (by decide) hu
  omega

/-- The EVM / EVM1.5 instructions this assembly backend emits.
Modelled from the spec: the opcode table of `libevmasm/Instruction.h` is
an external collaborator ("given an opcode, returns its byte value and
(pops, pushes) arity"), not part of this core's source.  `PUSH n` is the
"push `n` bytes" instruction, `1 ≤ n ≤ 32`. -/
inductive Instruction where
  | JUMPDEST
  | JUMP
  | JUMPI
  | JUMPTO
  | JUMPIF
  | JUMPSUB
  | BEGINSUB
  | RETURNSUB
  | PUSH (n : Nat)
deriving DecidableEq, Repr

/-- Static arity of an instruction: `args` operands popped, `ret`
results pushed. -/
structure InstructionInfo where
  args : Int
  ret : Int
deriving DecidableEq, Repr

/-- Modelled from the spec: the external opcode/arity table.  The spec
fixes the arities this file relies on: pushes produce one value
(`StackHeight` +1), the conditional jump consumes its target and the
condition value, the plain jump its target; the EVM1.5 control-flow
opcodes take their target as an inline immediate, the conditional
variant consuming only the condition. -/
def instructionInfo : Instruction → InstructionInfo
  | .JUMPDEST => ⟨0, 0⟩
  | .JUMP => ⟨1, 0⟩
  | .JUMPI => ⟨2, 0⟩
  | .JUMPTO => ⟨0, 0⟩
  | .JUMPIF => ⟨1, 0⟩
  | .JUMPSUB => ⟨0, 0⟩
  | .BEGINSUB => ⟨0, 0⟩
  | .RETURNSUB => ⟨0, 0⟩
  | .PUSH _ => ⟨0, 1⟩

/-- Modelled from the spec: the byte value `uint8_t(instr)` assigned by
the external encoder (`0x60` is `PUSH1`; `0xb0`-`0xb7` are the EVM1.5
control-flow opcodes). -/
def instrByte : Instruction → Nat
  | .JUMPDEST => 0x5b
  | .JUMP => 0x56
  | .JUMPI => 0x57
  | .JUMPTO => 0xb0
  | .JUMPIF => 0xb1
  | .JUMPSUB => 0xb3
  | .BEGINSUB => 0xb5
  | .RETURNSUB => 0xb7
  | .PUSH n => 0x60 + (n - 1)

/-- Modelled from the spec: `dev::eth::pushInstruction(n)` selects the
"push `n` bytes" opcode and asserts `1 ≤ n ≤ 32`. -/
def pushInstruction (n : Nat) : Option Instruction :=
  if 1 ≤ n ∧ n ≤ 32 then some (Instruction.PUSH n) else none

/-- Source location; its content is ignored by this backend. -/
structure SourceLocation where
  start : Int
  stop : Int
deriving DecidableEq, Repr

/-- `eth::LinkerObject`: the produced artifact is just the final byte
sequence (all references are resolved before it is handed out). -/
structure LinkerObject where
  bytecode : List Nat
deriving DecidableEq, Repr

/-- Size of labels in bytes (`labelReferenceSize`). -/
def labelReferenceSize : Nat := 4

/-- Size of assembly-size references in bytes
(`assemblySizeReferenceSize`). -/
def assemblySizeReferenceSize : Nat := 4

/-- Lookup in an association list (the `count`/`at`/`operator[]` reads
of `std::map`). -/
def lookupM {α β : Type} [DecidableEq α] : List (α × β) → α → Option β
  | [], _ => none
  | (k, v) :: l, k' => if k = k' then some v else lookupM l k'

/-- `std::map` assignment `m[k] = v`: replaces the value of an existing
key in place, otherwise adds the binding (appended at the end; for every
table of this program the new key is larger than all existing keys, so
list order and `std::map` key order agree). -/
def insertM {α β : Type} [DecidableEq α] : List (α × β) → α → β → List (α × β)
  | [], k, v => [(k, v)]
  | (k', v') :: l, k, v =>
      if k' = k then (k', v) :: l else (k', v') :: insertM l k v

/-- The assembler state: the members of class `EVMAssembly`.
`m_labelPositions` maps a label id to `none` (the `size_t(-1)`
"unresolved" sentinel) or `some pos`. -/
structure EVMAssembly where
  evm15 : Bool
  bytecode : List Nat
  stackHeight : Int
  labelPositions : List (Nat × Option Nat)
  labelReferences : List (Nat × Nat)
  assemblySizePositions : List Nat
  namedLabels : List (String × Nat)
  nextLabelId : Nat
deriving DecidableEq, Repr

/-- A freshly constructed assembly in the given mode. -/
def initialAssembly (evm15 : Bool) : EVMAssembly :=
  { evm15 := evm15, bytecode := [], stackHeight := 0, labelPositions := [],
    labelReferences := [], assemblySizePositions := [], namedLabels := [],
    nextLabelId := 0 }

/-- `EVMAssembly::setSourceLocation`: "Ignored for now". -/
def setSourceLocation (_loc : SourceLocation) (s : EVMAssembly) : EVMAssembly :=
  s

/-- `EVMAssembly::appendInstruction`: append the opcode byte and apply
the static stack arity. -/
def appendInstruction (i : Instruction) (s : EVMAssembly) : EVMAssembly :=
  { s with
    bytecode := s.bytecode ++ [instrByte i],
    stackHeight :=
      s.stackHeight + ((instructionInfo i).ret - (instructionInfo i).args) }

/-- `EVMAssembly::appendConstant`: minimal big-endian bytes (at least
one) of the constant, the matching push opcode, then the bytes. -/
def appendConstant (v : Nat) (s : EVMAssembly) : Option EVMAssembly := do
  let data := toCompactBigEndian v 1
  let pi ← pushInstruction data.length
  let s1 := appendInstruction pi s
  pure { s1 with bytecode := s1.bytecode ++ data }

/-- `EVMAssembly::setLabelToCurrentPosition`: the label must exist and
be unresolved; it is resolved to the current buffer length. -/
def setLabelToCurrentPosition (lid : Nat) (s : EVMAssembly) : Option EVMAssembly :=
  match lookupM s.labelPositions lid with
  | none => none
  | some (some _) => none
  | some none =>
      some { s with
        labelPositions := insertM s.labelPositions lid (some s.bytecode.length) }

/-- `EVMAssembly::appendLabel`: resolve the label here, then emit
`JUMPDEST`. -/
def appendLabel (lid : Nat) (s : EVMAssembly) : Option EVMAssembly :=
  (setLabelToCurrentPosition lid s).map (appendInstruction .JUMPDEST)

/-- `EVMAssembly::appendLabelReferenceInternal`: record a pending
reference at the current position and append four zero placeholder
bytes. -/
def appendLabelReferenceInternal (lid : Nat) (s : EVMAssembly) : EVMAssembly :=
  { s with
    labelReferences := insertM s.labelReferences s.bytecode.length lid,
    bytecode := s.bytecode ++ List.replicate labelReferenceSize 0 }

/-- `EVMAssembly::appendLabelReference`: legacy mode only; emit the
4-byte push opcode, then the pending reference placeholder. -/
def appendLabelReference (lid : Nat) (s : EVMAssembly) : Option EVMAssembly :=
  if s.evm15 then none
  else do
    let pi ← pushInstruction labelReferenceSize
    pure (appendLabelReferenceInternal lid (appendInstruction pi s))

/-- `EVMAssembly::newLabelId`: allocate a fresh unresolved label. -/
def newLabelId (s : EVMAssembly) : Nat × EVMAssembly :=
  (s.nextLabelId,
    { s with
      labelPositions := insertM s.labelPositions s.nextLabelId none,
      nextLabelId := s.nextLabelId + 1 })

/-- `EVMAssembly::namedLabel`: empty names are fatal; a known name
yields its existing id, otherwise a fresh label is allocated and
recorded under the name. -/
def namedLabel (name : String) (s : EVMAssembly) : Option (Nat × EVMAssembly) :=
  if name = "" then none
  else
    match lookupM s.namedLabels name with
    | some i => some (i, s)
    | none =>
        let (i, s1) := newLabelId s
        some (i, { s1 with namedLabels := insertM s1.namedLabels name i })

/-- `EVMAssembly::appendLinkerSymbol`: not implemented, always fatal. -/
def appendLinkerSymbol (_name : String) (_s : EVMAssembly) : Option EVMAssembly :=
  none

/-- `EVMAssembly::appendJump`: legacy mode only; emit `JUMP` and apply
the caller-supplied stack adjustment. -/
def appendJump (stackDiffAfter : Int) (s : EVMAssembly) : Option EVMAssembly :=
  if s.evm15 then none
  else
    let s1 := appendInstruction .JUMP s
    some { s1 with stackHeight := s1.stackHeight + stackDiffAfter }

/-- `EVMAssembly::appendJumpOut`: delegates to `appendJump`. -/
def appendJumpOut (stackDiffAfter : Int) (s : EVMAssembly) : Option EVMAssembly :=
  appendJump stackDiffAfter s

/-- `EVMAssembly::appendJumpTo`: EVM1.5 emits `JUMPTO` plus an inline
reference; legacy emits a label reference then a plain jump. -/
def appendJumpTo (lid : Nat) (stackDiffAfter : Int) (s : EVMAssembly) :
    Option EVMAssembly :=
  if s.evm15 then
    let s1 := { s with bytecode := s.bytecode ++ [instrByte .JUMPTO] }
    let s2 := appendLabelReferenceInternal lid s1
    some { s2 with stackHeight := s2.stackHeight + stackDiffAfter }
  else do
    let s1 ← appendLabelReference lid s
    appendJump stackDiffAfter s1

/-- `EVMAssembly::appendJumpToIf`: EVM1.5 emits `JUMPIF` plus an inline
reference and decrements the stack height; legacy emits a label
reference then `JUMPI`. -/
def appendJumpToIf (lid : Nat) (s : EVMAssembly) : Option EVMAssembly :=
  if s.evm15 then
    let s1 := { s with bytecode := s.bytecode ++ [instrByte .JUMPIF] }
    let s2 := appendLabelReferenceInternal lid s1
    some { s2 with stackHeight := s2.stackHeight - 1 }
  else do
    let s1 ← appendLabelReference lid s
    pure (appendInstruction .JUMPI s1)

/-- `EVMAssembly::appendBeginsub`: EVM1.5 only, argument count
non-negative; resolves the label here, emits `BEGINSUB`, and raises the
stack height by the argument count. -/
def appendBeginsub (lid : Nat) (arguments : Int) (s : EVMAssembly) :
    Option EVMAssembly :=
  if !s.evm15 then none
  else if arguments < 0 then none
  else do
    let s1 ← setLabelToCurrentPosition lid s
    pure { s1 with
      bytecode := s1.bytecode ++ [instrByte .BEGINSUB],
      stackHeight := s1.stackHeight + arguments }

/-- `EVMAssembly::appendJumpsub`: EVM1.5 only, argument and return
counts non-negative; emits `JUMPSUB` plus an inline reference. -/
def appendJumpsub (lid : Nat) (arguments returns : Int) (s : EVMAssembly) :
    Option EVMAssembly :=
  if !s.evm15 then none
  else if arguments < 0 ∨ returns < 0 then none
  else
    let s1 := { s with bytecode := s.bytecode ++ [instrByte .JUMPSUB] }
    let s2 := appendLabelReferenceInternal lid s1
    some { s2 with stackHeight := s2.stackHeight + (returns - arguments) }

/-- `EVMAssembly::appendReturnsub`: EVM1.5 only, return count
non-negative; emits `RETURNSUB`. -/
def appendReturnsub (returns stackDiffAfter : Int) (s : EVMAssembly) :
    Option EVMAssembly :=
  if !s.evm15 then none
  else if returns < 0 then none
  else
    some { s with
      bytecode := s.bytecode ++ [instrByte .RETURNSUB],
      stackHeight := s.stackHeight + (stackDiffAfter - returns) }

/-- `EVMAssembly::appendAssemblySize`: emit a 4-byte push, record the
position among the assembly-size references, append four zero
placeholder bytes. -/
def appendAssemblySize (s : EVMAssembly) : Option EVMAssembly := do
  let pi ← pushInstruction assemblySizeReferenceSize
  let s1 := appendInstruction pi s
  pure { s1 with
    assemblySizePositions := s1.assemblySizePositions ++ [s1.bytecode.length],
    bytecode := s1.bytecode ++ List.replicate assemblySizeReferenceSize 0 }

/-- `EVMAssembly::createSubAssembly`: not implemented, always fatal. -/
def createSubAssembly (_s : EVMAssembly) : Option EVMAssembly :=
  none

/-- `EVMAssembly::appendDataOffset`: not implemented, always fatal. -/
def appendDataOffset (_sub : Nat) (_s : EVMAssembly) : Option EVMAssembly :=
  none

/-- `EVMAssembly::appendDataSize`: not implemented, always fatal. -/
def appendDataSize (_sub : Nat) (_s : EVMAssembly) : Option EVMAssembly :=
  none

/-- `EVMAssembly::appendData`: not implemented, always fatal. -/
def appendData (_data : List Nat) (_s : EVMAssembly) : Option EVMAssembly :=
  none

/-- `EVMAssembly::updateReference`: patch `value` as `size` big-endian
bytes at `pos`, asserting the window is in bounds and the value fits. -/
def updateReference (pos size : Nat) (value : Nat) (b : List Nat) :
    Option (List Nat) :=
  if size ≤ b.length ∧ pos ≤ b.length - size then
    if value < 2 ^ (8 * size) then
      some (setBytes b pos (toBigEndian size value))
    else none
  else none

/-- The first loop of `finalize`: patch the final byte count into every
assembly-size reference. -/
def patchSizeRefs : List Nat → Nat → List Nat → Option (List Nat)
  | [], _, b => some b
  | r :: rs, sz, b => do
      let b1 ← updateReference r assemblySizeReferenceSize sz b
      patchSizeRefs rs sz b1

/-- The second loop of `finalize`: for each pending label reference the
label must exist (`count`) and be resolved (not the `size_t(-1)`
sentinel); its position is patched in. -/
def patchLabelRefs :
    List (Nat × Nat) → List (Nat × Option Nat) → List Nat → Option (List Nat)
  | [], _, b => some b
  | (r, lid) :: rs, lp, b => do
      let posSentinel ← lookupM lp lid
      let labelPos ← posSentinel
      let b1 ← updateReference r labelReferenceSize labelPos b
      patchLabelRefs rs lp b1

/-- `EVMAssembly::finalize`: patch all assembly-size references with the
final length, then all label references with the resolved label
positions, and hand out the linker object.  The patched buffer remains
in the instance (`m_bytecode` is mutated in place). -/
def finalize (s : EVMAssembly) : Option (LinkerObject × EVMAssembly) := do
  let bytecodeSize := s.bytecode.length
  let b1 ← patchSizeRefs s.assemblySizePositions bytecodeSize s.bytecode
  let b2 ← patchLabelRefs s.labelReferences s.labelPositions b1
  pure (⟨b2⟩, { s with bytecode := b2 })

/-- One emission operation of the public interface.  The ids returned by
`newLabelId`/`namedLabel` are not part of the state transition, so they
are dropped here; emission sequences may mention any label id. -/
inductive Op where
  | setSourceLocation (loc : SourceLocation)
  | appendInstruction (i : Instruction)
  | appendConstant (v : Nat)
  | appendLabel (lid : Nat)
  | appendLabelReference (lid : Nat)
  | newLabelId
  | namedLabel (name : String)
  | appendLinkerSymbol (name : String)
  | appendJump (stackDiffAfter : Int)
  | appendJumpOut (stackDiffAfter : Int)
  | appendJumpTo (lid : Nat) (stackDiffAfter : Int)
  | appendJumpToIf (lid : Nat)
  | appendBeginsub (lid : Nat) (arguments : Int)
  | appendJumpsub (lid : Nat) (arguments returns : Int)
  | appendReturnsub (returns stackDiffAfter : Int)
  | appendAssemblySize
  | createSubAssembly
  | appendDataOffset (sub : Nat)
  | appendDataSize (sub : Nat)
  | appendData (data : List Nat)
deriving DecidableEq, Repr

/-- Apply one emission operation to the assembler state. -/
def applyOp : Op → EVMAssembly → Option EVMAssembly
  | .setSourceLocation loc, s => some (setSourceLocation loc s)
  | .appendInstruction i, s => some (appendInstruction i s)
  | .appendConstant v, s => appendConstant v s
  | .appendLabel lid, s => appendLabel lid s
  | .appendLabelReference lid, s => appendLabelReference lid s
  | .newLabelId, s => some (newLabelId s).2
  | .namedLabel name, s => (namedLabel name s).map Prod.snd
  | .appendLinkerSymbol name, s => appendLinkerSymbol name s
  | .appendJump d, s => appendJump d s
  | .appendJumpOut d, s => appendJumpOut d s
  | .appendJumpTo lid d, s => appendJumpTo lid d s
  | .appendJumpToIf lid, s => appendJumpToIf lid s
  | .appendBeginsub lid a, s => appendBeginsub lid a s
  | .appendJumpsub lid a r, s => appendJumpsub lid a r s
  | .appendReturnsub r d, s => appendReturnsub r d s
  | .appendAssemblySize, s => appendAssemblySize s
  | .createSubAssembly, s => createSubAssembly s
  | .appendDataOffset sub, s => appendDataOffset sub s
  | .appendDataSize sub, s => appendDataSize sub s
  | .appendData d, s => appendData d s

/-- Run an emission sequence; a fatal failure aborts the run. -/
def run : List Op → EVMAssembly → Option EVMAssembly
  | [], s => some s
  | op :: ops, s => do
      let s1 ← applyOp op s
      run ops s1

theorem updateReference_eq_some (pos size value : Nat) (b : List Nat)
    (hpos : pos + size ≤ b.length) (hv : value < 2 ^ (8 * size)) :
    updateReference pos size value b =
      some (setBytes b pos (toBigEndian size value)) := by
  rw [updateReference, if_pos (by omega), if_pos hv]

theorem updateReference_some_inv (pos size value : Nat) (b b' : List Nat)
    (h : updateReference pos size value b = some b') :
    pos + size ≤ b.length ∧ value < 2 ^ (8 * size) ∧
      b' = setBytes b pos (toBigEndian size value) := by
  rw [updateReference] at h
  by_cases h1 : size ≤ b.length ∧ pos ≤ b.length - size
  · rw [if_pos h1] at h
    by_cases h2 : value < 2 ^ (8 * size)
    · rw [if_pos h2] at h
      exact ⟨by omega, h2, (Option.some_inj.mp h).symm⟩
    · rw [if_neg h2] at h
      exact absurd h (by simp)
  · rw [if_neg h1] at h
    exact absurd h (by simp)

theorem updateReference_length (pos size value : Nat) (b b' : List Nat)
    (h : updateReference pos size value b = some b') :
    b'.length = b.length := by
  obtain ⟨-, -, h3⟩ := updateReference_some_inv pos size value b b' h
  rw [h3, setBytes_length]

theorem updateReference_frame (pos size value : Nat) (b b' : List Nat)
    (h : updateReference pos size value b = some b')
    (j : Nat) (hj : j < pos ∨ pos + size ≤ j) :
    b'[j]? = b[j]? := by
  obtain ⟨-, -, h3⟩ := updateReference_some_inv pos size value b b' h
  rw [h3]
  exact setBytes_frame _ _ _ _ (by rw [toBigEndian_length]; omega)

theorem pow_two_eight_mul (size : Nat) : 2 ^ (8 * size) = 256 ^ size := by
  rw [pow_mul]
  norm_num

theorem updateReference_readBE (pos size value : Nat) (b b' : List Nat)
    (h : updateReference pos size value b = some b') :
    readBE b' pos size = value := by
  obtain ⟨h1, h2, h3⟩ := updateReference_some_inv pos size value b b' h
  rw [h3]
  have hlen : (toBigEndian size value).length = size := toBigEndian_length _ _
  have := readBE_setBytes (toBigEndian size value) b pos (by omega)
  rw [hlen] at this
  rw [this]
  exact fromBigEndian_toBigEndian size value (by rw [← pow_two_eight_mul]; exact h2)

/-- Two 4-byte reference windows at these offsets do not overlap. -/
def windowsDisjoint (a b : Nat) : Prop := a + 4 ≤ b ∨ b + 4 ≤ a

/-- All pending reference offsets of the state: label references
followed by assembly-size references. -/
def refOffsets (s : EVMAssembly) : List Nat :=
  s.labelReferences.map Prod.fst ++ s.assemblySizePositions

/-- Invariant of every reachable assembler state: all reference windows
lie inside the buffer and are pairwise disjoint, and every resolved
label position is at most the buffer length. -/
structure WF (s : EVMAssembly) : Prop where
  bounded : ∀ r ∈ refOffsets s, r + 4 ≤ s.bytecode.length
  disjointRefs : (refOffsets s).Pairwise windowsDisjoint
  posBounded : ∀ p ∈ s.labelPositions, ∀ q, p.2 = some q → q ≤ s.bytecode.length

theorem windowsDisjoint_symmetric : Symmetric windowsDisjoint :=
  fun _ _ h => h.symm

theorem insertM_mem {α β : Type} [DecidableEq α] (l : List (α × β)) (k : α)
    (v : β) (p : α × β) (h : p ∈ insertM l k v) :
    p ∈ l ∨ p = (k, v) := by
  induction l with
  | nil => simpa [insertM] using h
  | cons q l ih =>
      rw [insertM] at h
      by_cases hq : q.1 = k
      · rw [if_pos hq] at h
        rcases List.mem_cons.mp h with h1 | h1
        · right
          rw [h1, hq]
        · left
          exact List.mem_cons_of_mem _ h1
      · rw [if_neg hq] at h
        rcases List.mem_cons.mp h with h1 | h1
        · left
          rw [h1]
          exact List.mem_cons_self _ _
        · rcases ih h1 with h2 | h2
          · exact Or.inl (List.mem_cons_of_mem _ h2)
          · exact Or.inr h2

theorem insertM_of_fresh {α β : Type} [DecidableEq α] (l : List (α × β))
    (k : α) (v : β) (h : ∀ p ∈ l, p.1 ≠ k) :
    insertM l k v = l ++ [(k, v)] := by
  induction l with
  | nil => rfl
  | cons q l ih =>
      rw [insertM, if_neg (h q (List.mem_cons_self _ _)),
        ih (fun p hp => h p (List.mem_cons_of_mem _ hp))]
      rfl

theorem lookupM_insertM_self {α β : Type} [DecidableEq α] (l : List (α × β))
    (k : α) (v : β) : lookupM (insertM l k v) k = some v := by
  induction l with
  | nil => simp [insertM, lookupM]
  | cons q l ih =>
      rw [insertM]
      by_cases hq : q.1 = k
      · rw [if_pos hq]
        rw [show ((q.1, v) : α × β) = (q.1, v) from rfl]
        rw [lookupM, if_pos hq]
      · rw [if_neg hq]
        have : (q.1, q.2) = q := rfl
        rw [← this, lookupM, if_neg hq, ih]

theorem lookupM_insertM_ne {α β : Type} [DecidableEq α] (l : List (α × β))
    (k k' : α) (v : β) (h : k' ≠ k) :
    lookupM (insertM l k v) k' = lookupM l k' := by
  induction l with
  | nil =>
      simp only [insertM, lookupM]
      rw [if_neg (fun h1 => h h1.symm)]
  | cons q l ih =>
      rw [insertM]
      by_cases hq : q.1 = k
      · rw [if_pos hq]
        rw [show q = (q.1, q.2) from rfl, lookupM, lookupM]
        rw [if_neg (by rw [hq]; exact fun h2 => h h2.symm),
          if_neg (by rw [hq]; exact fun h2 => h h2.symm)]
      · rw [if_neg hq]
        rw [show q = (q.1, q.2) from rfl, lookupM, lookupM]
        by_cases hk : q.1 = k'
        · rw [if_pos hk, if_pos hk]
        · rw [if_neg hk, if_neg hk, ih]

theorem lookupM_mem {α β : Type} [DecidableEq α] (l : List (α × β)) (k : α)
    (v : β) (h : lookupM l k = some v) : (k, v) ∈ l := by
  induction l with
  | nil => simp [lookupM] at h
  | cons q l ih =>
      rw [show q = (q.1, q.2) from rfl, lookupM] at h
      by_cases hq : q.1 = k
      · rw [if_pos hq] at h
        have : q = (k, v) := by
          rw [show q = (q.1, q.2) from rfl, hq, Option.some_inj.mp h]
        rw [this] at *
        exact List.mem_cons_self _ _
      · rw [if_neg hq] at h
        exact List.mem_cons_of_mem _ (ih h)

/-- Transfer of the invariant along a step that keeps the reference
tables, does not shrink the buffer, and only adds label positions
bounded by the new buffer length. -/
theorem WF.transfer (s s' : EVMAssembly) (hw : WF s)
    (hro : refOffsets s' = refOffsets s)
    (hlen : s.bytecode.length ≤ s'.bytecode.length)
    (hlp : ∀ p ∈ s'.labelPositions,
      p ∈ s.labelPositions ∨ ∀ q, p.2 = some q → q ≤ s'.bytecode.length) :
    WF s' := by
  constructor
  · intro r hr
    rw [hro] at hr
    have := hw.bounded r hr
    omega
  · rw [hro]
    exact hw.disjointRefs
  · intro p hp q hq
    rcases hlp p hp with h1 | h1
    · have := hw.posBounded p h1 q hq
      omega
    · exact h1 q hq

theorem wf_appendInstruction (i : Instruction) (s : EVMAssembly) (hw : WF s) :
    WF (appendInstruction i s) := by
  refine WF.transfer s _ hw rfl ?_ ?_
  · simp [appendInstruction]
  · intro p hp
    exact Or.inl hp

theorem wf_appendConstant (v : Nat) (s s' : EVMAssembly)
    (h : appendConstant v s = some s') (hw : WF s) : WF s' := by
  rw [appendConstant] at h
  cases hp : pushInstruction (toCompactBigEndian v 1).length with
  | none => rw [hp] at h; simp at h
  | some pi =>
      rw [hp] at h
      simp at h
      subst h
      refine WF.transfer (appendInstruction pi s) _
        (wf_appendInstruction pi s hw) rfl ?_ ?_
      · simp
      · intro p hp2
        exact Or.inl hp2

theorem wf_setLabelToCurrentPosition (lid : Nat) (s s' : EVMAssembly)
    (h : setLabelToCurrentPosition lid s = some s') (hw : WF s) : WF s' := by
  rw [setLabelToCurrentPosition] at h
  cases hl : lookupM s.labelPositions lid with
  | none => rw [hl] at h; simp at h
  | some posSentinel =>
      cases posSentinel with
      | some q => rw [hl] at h; simp at h
      | none =>
          rw [hl, Option.some_inj] at h
          subst h
          refine WF.transfer s _ hw rfl (le_refl _) ?_
          intro p hp
          rcases insertM_mem _ _ _ _ hp with h1 | h1
          · exact Or.inl h1
          · right
            intro q hq
            rw [h1] at hq
            have hq2 : s.bytecode.length = q := Option.some_inj.mp hq
            exact le_of_eq hq2.symm

theorem wf_appendLabel (lid : Nat) (s s' : EVMAssembly)
    (h : appendLabel lid s = some s') (hw : WF s) : WF s' := by
  rw [appendLabel] at h
  cases hl : setLabelToCurrentPosition lid s with
  | none => rw [hl] at h; simp at h
  | some s1 =>
      rw [hl] at h
      have h2 : appendInstruction .JUMPDEST s1 = s' := Option.some_inj.mp h
      subst h2
      exact wf_appendInstruction _ _ (wf_setLabelToCurrentPosition lid s s1 hl hw)

theorem refOffsets_fresh (s : EVMAssembly) (hw : WF s) (p : Nat × Nat)
    (hp : p ∈ s.labelReferences) : p.1 ≠ s.bytecode.length := by
  have hmem : p.1 ∈ refOffsets s :=
    List.mem_append_left _ (List.mem_map_of_mem Prod.fst hp)
  have := hw.bounded p.1 hmem
  omega

theorem pairwise_refOffsets_cons (s : EVMAssembly) (hw : WF s) :
    (s.bytecode.length :: refOffsets s).Pairwise windowsDisjoint := by
  rw [List.pairwise_cons]
  constructor
  · intro x hx
    have := hw.bounded x hx
    right
    omega
  · exact hw.disjointRefs

theorem wf_appendLabelReferenceInternal (lid : Nat) (s : EVMAssembly)
    (hw : WF s) : WF (appendLabelReferenceInternal lid s) := by
  have hins : insertM s.labelReferences s.bytecode.length lid =
      s.labelReferences ++ [(s.bytecode.length, lid)] :=
    insertM_of_fresh _ _ _ (refOffsets_fresh s hw)
  have hro : refOffsets (appendLabelReferenceInternal lid s) =
      (s.labelReferences.map Prod.fst ++ [s.bytecode.length]) ++
        s.assemblySizePositions := by
    rw [refOffsets]
    show (insertM s.labelReferences s.bytecode.length lid).map Prod.fst ++
      s.assemblySizePositions = _
    rw [hins]
    simp
  have hperm : List.Perm (refOffsets (appendLabelReferenceInternal lid s))
      (s.bytecode.length :: refOffsets s) := by
    rw [hro, List.append_assoc]
    exact List.perm_middle
  have hlen : (appendLabelReferenceInternal lid s).bytecode.length =
      s.bytecode.length + 4 := by
    show (s.bytecode ++ List.replicate labelReferenceSize 0).length = _
    simp [labelReferenceSize]
  constructor
  · intro r hr
    rw [hlen]
    have hr2 : r ∈ s.bytecode.length :: refOffsets s := hperm.mem_iff.mp hr
    rcases List.mem_cons.mp hr2 with h1 | h1
    · omega
    · have := hw.bounded r h1
      omega
  · exact List.Pairwise.perm (pairwise_refOffsets_cons s hw) hperm.symm
      (fun h => Or.symm h)
  · intro p hp q hq
    have := hw.posBounded p hp q hq
    rw [hlen]
    omega

theorem wf_appendLabelReference (lid : Nat) (s s' : EVMAssembly)
    (h : appendLabelReference lid s = some s') (hw : WF s) : WF s' := by
  rw [appendLabelReference] at h
  by_cases he : s.evm15
  · rw [if_pos he] at h
    exact absurd h (by simp)
  · rw [if_neg he] at h
    have h2 : appendLabelReferenceInternal lid
        (appendInstruction (.PUSH 4) s) = s' := Option.some_inj.mp h
    subst h2
    exact wf_appendLabelReferenceInternal _ _ (wf_appendInstruction _ _ hw)

theorem wf_newLabelId (s : EVMAssembly) (hw : WF s) : WF (newLabelId s).2 := by
  refine WF.transfer s _ hw rfl (le_refl _) ?_
  intro p hp
  rcases insertM_mem _ _ _ _ hp with h1 | h1
  · exact Or.inl h1
  · right
    intro q hq
    rw [h1] at hq
    exact absurd hq (by simp)

theorem wf_namedLabel (name : String) (s : EVMAssembly) (i : Nat)
    (s' : EVMAssembly) (h : namedLabel name s = some (i, s')) (hw : WF s) :
    WF s' := by
  rw [namedLabel] at h
  by_cases hn : name = ""
  · rw [if_pos hn] at h
    exact absurd h (by simp)
  · rw [if_neg hn] at h
    cases hl : lookupM s.namedLabels name with
    | some j =>
        rw [hl] at h
        have h2 : (j, s) = (i, s') := Option.some_inj.mp h
        have h3 : s = s' := congrArg Prod.snd h2
        rw [← h3]
        exact hw
    | none =>
        rw [hl] at h
        have h2 := Option.some_inj.mp h
        rw [Prod.mk.injEq] at h2
        obtain ⟨h2a, h2b⟩ := h2
        rw [← h2b]
        refine WF.transfer (newLabelId s).2 _ (wf_newLabelId s hw) rfl
          (le_refl _) ?_
        intro p hp
        exact Or.inl hp

theorem wf_appendJump (d : Int) (s s' : EVMAssembly)
    (h : appendJump d s = some s') (hw : WF s) : WF s' := by
  rw [appendJump] at h
  by_cases he : s.evm15
  · rw [if_pos he] at h
    exact absurd h (by simp)
  · rw [if_neg he] at h
    have h2 := Option.some_inj.mp h
    rw [← h2]
    refine WF.transfer (appendInstruction .JUMP s) _
      (wf_appendInstruction _ _ hw) rfl (le_refl _) ?_
    intro p hp
    exact Or.inl hp

theorem wf_appendJumpTo (lid : Nat) (d : Int) (s s' : EVMAssembly)
    (h : appendJumpTo lid d s = some s') (hw : WF s) : WF s' := by
  rw [appendJumpTo] at h
  by_cases he : s.evm15
  · rw [if_pos he] at h
    have h2 := Option.some_inj.mp h
    rw [← h2]
    have hw1 : WF { s with bytecode := s.bytecode ++ [instrByte .JUMPTO] } := by
      refine WF.transfer s _ hw rfl (by simp) ?_
      intro p hp
      exact Or.inl hp
    refine WF.transfer
      (appendLabelReferenceInternal lid
        { s with bytecode := s.bytecode ++ [instrByte .JUMPTO] }) _
      (wf_appendLabelReferenceInternal _ _ hw1) rfl (le_refl _) ?_
    intro p hp
    exact Or.inl hp
  · rw [if_neg he] at h
    cases hl : appendLabelReference lid s with
    | none => rw [hl] at h; exact absurd h (by simp)
    | some s1 =>
        rw [hl] at h
        exact wf_appendJump d s1 s' h (wf_appendLabelReference lid s s1 hl hw)

theorem wf_appendJumpToIf (lid : Nat) (s s' : EVMAssembly)
    (h : appendJumpToIf lid s = some s') (hw : WF s) : WF s' := by
  rw [appendJumpToIf] at h
  by_cases he : s.evm15
  · rw [if_pos he] at h
    have h2 := Option.some_inj.mp h
    rw [← h2]
    have hw1 : WF { s with bytecode := s.bytecode ++ [instrByte .JUMPIF] } := by
      refine WF.transfer s _ hw rfl (by simp) ?_
      intro p hp
      exact Or.inl hp
    refine WF.transfer
      (appendLabelReferenceInternal lid
        { s with bytecode := s.bytecode ++ [instrByte .JUMPIF] }) _
      (wf_appendLabelReferenceInternal _ _ hw1) rfl (le_refl _) ?_
    intro p hp
    exact Or.inl hp
  · rw [if_neg he] at h
    cases hl : appendLabelReference lid s with
    | none => rw [hl] at h; exact absurd h (by simp)
    | some s1 =>
        rw [hl] at h
        have h2 := Option.some_inj.mp h
        rw [← h2]
        exact wf_appendInstruction _ _ (wf_appendLabelReference lid s s1 hl hw)

theorem wf_appendBeginsub (lid : Nat) (a : Int) (s s' : EVMAssembly)
    (h : appendBeginsub lid a s = some s') (hw : WF s) : WF s' := by
  rw [appendBeginsub] at h
  by_cases he : !s.evm15
  · rw [if_pos he] at h
    exact absurd h (by simp)
  · rw [if_neg he] at h
    by_cases ha : a < 0
    · rw [if_pos ha] at h
      exact absurd h (by simp)
    · rw [if_neg ha] at h
      cases hl : setLabelToCurrentPosition lid s with
      | none => rw [hl] at h; exact absurd h (by simp)
      | some s1 =>
          rw [hl] at h
          replace h := Option.some_inj.mp h
          rw [← h]
          refine WF.transfer s1 _
            (wf_setLabelToCurrentPosition lid s s1 hl hw) rfl (by simp) ?_
          intro p hp
          exact Or.inl hp

theorem wf_appendJumpsub (lid : Nat) (a r : Int) (s s' : EVMAssembly)
    (h : appendJumpsub lid a r s = some s') (hw : WF s) : WF s' := by
  rw [appendJumpsub] at h
  by_cases he : !s.evm15
  · rw [if_pos he] at h
    exact absurd h (by simp)
  · rw [if_neg he] at h
    by_cases ha : a < 0 ∨ r < 0
    · rw [if_pos ha] at h
      exact absurd h (by simp)
    · rw [if_neg ha] at h
      have h2 := Option.some_inj.mp h
      rw [← h2]
      have hw1 : WF { s with bytecode := s.bytecode ++ [instrByte .JUMPSUB] } := by
        refine WF.transfer s _ hw rfl (by simp) ?_
        intro p hp
        exact Or.inl hp
      refine WF.transfer
        (appendLabelReferenceInternal lid
          { s with bytecode := s.bytecode ++ [instrByte .JUMPSUB] }) _
        (wf_appendLabelReferenceInternal _ _ hw1) rfl (le_refl _) ?_
      intro p hp
      exact Or.inl hp

theorem wf_appendReturnsub (r d : Int) (s s' : EVMAssembly)
    (h : appendReturnsub r d s = some s') (hw : WF s) : WF s' := by
  rw [appendReturnsub] at h
  by_cases he : !s.evm15
  · rw [if_pos he] at h
    exact absurd h (by simp)
  · rw [if_neg he] at h
    by_cases hr : r < 0
    · rw [if_pos hr] at h
      exact absurd h (by simp)
    · rw [if_neg hr] at h
      have h2 := Option.some_inj.mp h
      rw [← h2]
      refine WF.transfer s _ hw rfl (by simp) ?_
      intro p hp
      exact Or.inl hp

theorem wf_appendAssemblySize (s s' : EVMAssembly)
    (h : appendAssemblySize s = some s') (hw : WF s) : WF s' := by
  rw [appendAssemblySize] at h
  have hpi : pushInstruction assemblySizeReferenceSize =
      some (Instruction.PUSH 4) := rfl
  rw [hpi] at h
  replace h := Option.some_inj.mp h
  rw [← h]
  have hw1 : WF (appendInstruction (.PUSH 4) s) := wf_appendInstruction _ _ hw
  set s1 := appendInstruction (.PUSH 4) s with hs1
  have hro : refOffsets { s1 with
      assemblySizePositions := s1.assemblySizePositions ++ [s1.bytecode.length],
      bytecode := s1.bytecode ++ List.replicate assemblySizeReferenceSize 0 } =
      refOffsets s1 ++ [s1.bytecode.length] := by
    rw [refOffsets, refOffsets]
    show s1.labelReferences.map Prod.fst ++
      (s1.assemblySizePositions ++ [s1.bytecode.length]) = _
    rw [← List.append_assoc]
  have hperm : List.Perm (refOffsets { s1 with
      assemblySizePositions := s1.assemblySizePositions ++ [s1.bytecode.length],
      bytecode := s1.bytecode ++ List.replicate assemblySizeReferenceSize 0 })
      (s1.bytecode.length :: refOffsets s1) := by
    rw [hro]
    exact List.perm_append_singleton _ _
  constructor
  · intro r hr
    have hr2 := hperm.mem_iff.mp hr
    have hlen : (s1.bytecode ++
        List.replicate assemblySizeReferenceSize 0).length =
        s1.bytecode.length + 4 := by simp [assemblySizeReferenceSize]
    show r + 4 ≤ (s1.bytecode ++ List.replicate assemblySizeReferenceSize 0).length
    rw [hlen]
    rcases List.mem_cons.mp hr2 with h1 | h1
    · omega
    · have := hw1.bounded r h1
      omega
  · exact List.Pairwise.perm (pairwise_refOffsets_cons s1 hw1) hperm.symm
      (fun h => Or.symm h)
  · intro p hp q hq
    have := hw1.posBounded p hp q hq
    have hlen : (s1.bytecode ++
        List.replicate assemblySizeReferenceSize 0).length =
        s1.bytecode.length + 4 := by simp [assemblySizeReferenceSize]
    show q ≤ (s1.bytecode ++ List.replicate assemblySizeReferenceSize 0).length
    omega

theorem wf_applyOp (op : Op) (s s' : EVMAssembly)
    (h : applyOp op s = some s') (hw : WF s) : WF s' := by
  cases op with
  | setSourceLocation loc =>
      replace h := Option.some_inj.mp h
      rw [← h]
      exact hw
  | appendInstruction i =>
      replace h := Option.some_inj.mp h
      rw [← h]
      exact wf_appendInstruction i s hw
  | appendConstant v => exact wf_appendConstant v s s' h hw
  | appendLabel lid => exact wf_appendLabel lid s s' h hw
  | appendLabelReference lid => exact wf_appendLabelReference lid s s' h hw
  | newLabelId =>
      replace h := Option.some_inj.mp h
      rw [← h]
      exact wf_newLabelId s hw
  | namedLabel name =>
      simp only [applyOp] at h
      cases hl : namedLabel name s with
      | none => rw [hl] at h; simp at h
      | some p =>
          rw [hl] at h
          replace h := Option.some_inj.mp h
          rw [← h]
          exact wf_namedLabel name s p.1 p.2 hl hw
  | appendLinkerSymbol name => simp [applyOp, appendLinkerSymbol] at h
  | appendJump d => exact wf_appendJump d s s' h hw
  | appendJumpOut d => exact wf_appendJump d s s' h hw
  | appendJumpTo lid d => exact wf_appendJumpTo lid d s s' h hw
  | appendJumpToIf lid => exact wf_appendJumpToIf lid s s' h hw
  | appendBeginsub lid a => exact wf_appendBeginsub lid a s s' h hw
  | appendJumpsub lid a r => exact wf_appendJumpsub lid a r s s' h hw
  | appendReturnsub r d => exact wf_appendReturnsub r d s s' h hw
  | appendAssemblySize => exact wf_appendAssemblySize s s' h hw
  | createSubAssembly => simp [applyOp, createSubAssembly] at h
  | appendDataOffset sub => simp [applyOp, appendDataOffset] at h
  | appendDataSize sub => simp [applyOp, appendDataSize] at h
  | appendData d => simp [applyOp, appendData] at h

theorem wf_initialAssembly (evm15 : Bool) : WF (initialAssembly evm15) := by
  constructor
  · intro r hr
    exact absurd hr (by simp [initialAssembly, refOffsets])
  · simp [initialAssembly, refOffsets]
  · intro p hp
    exact absurd hp (by simp [initialAssembly])

theorem wf_run (ops : List Op) (s s' : EVMAssembly)
    (h : run ops s = some s') (hw : WF s) : WF s' := by
  induction ops generalizing s with
  | nil =>
      replace h := Option.some_inj.mp h
      rw [← h]
      exact hw
  | cons op ops ih =>
      rw [run] at h
      cases happ : applyOp op s with
      | none => rw [happ] at h; simp at h
      | some s1 =>
          rw [happ] at h
          exact ih s1 h (wf_applyOp op s s1 happ hw)

theorem setLabelToCurrentPosition_namedLabels (lid : Nat) (s s' : EVMAssembly)
    (h : setLabelToCurrentPosition lid s = some s') :
    s'.namedLabels = s.namedLabels := by
  rw [setLabelToCurrentPosition] at h
  cases hl : lookupM s.labelPositions lid with
  | none => rw [hl] at h; simp at h
  | some posSentinel =>
      cases posSentinel with
      | some q => rw [hl] at h; simp at h
      | none =>
          rw [hl] at h
          replace h := Option.some_inj.mp h
          rw [← h]

theorem appendLabelReference_namedLabels (lid : Nat) (s s' : EVMAssembly)
    (h : appendLabelReference lid s = some s') :
    s'.namedLabels = s.namedLabels := by
  rw [appendLabelReference] at h
  by_cases he : s.evm15
  · rw [if_pos he] at h
    simp at h
  · rw [if_neg he] at h
    replace h := Option.some_inj.mp h
    rw [← h]
    rfl

theorem appendJump_namedLabels (d : Int) (s s' : EVMAssembly)
    (h : appendJump d s = some s') : s'.namedLabels = s.namedLabels := by
  rw [appendJump] at h
  by_cases he : s.evm15
  · rw [if_pos he] at h
    simp at h
  · rw [if_neg he] at h
    replace h := Option.some_inj.mp h
    rw [← h]
    rfl

/-- No emission operation ever removes or redirects a named-label
binding: an established name keeps its id. -/
theorem applyOp_namedLabels (op : Op) (s s' : EVMAssembly)
    (h : applyOp op s = some s') (n : String) (i : Nat)
    (hl : lookupM s.namedLabels n = some i) :
    lookupM s'.namedLabels n = some i := by
  cases op with
  | setSourceLocation loc =>
      replace h := Option.some_inj.mp h
      rw [← h]
      exact hl
  | appendInstruction ins =>
      replace h := Option.some_inj.mp h
      rw [← h]
      exact hl
  | appendConstant v =>
      simp only [applyOp] at h
      rw [appendConstant] at h
      cases hp : pushInstruction (toCompactBigEndian v 1).length with
      | none => rw [hp] at h; simp at h
      | some pi =>
          rw [hp] at h
          replace h := Option.some_inj.mp h
          rw [← h]
          exact hl
  | appendLabel lid =>
      simp only [applyOp] at h
      rw [appendLabel] at h
      cases hsl : setLabelToCurrentPosition lid s with
      | none => rw [hsl] at h; simp at h
      | some s1 =>
          rw [hsl] at h
          replace h := Option.some_inj.mp h
          rw [← h]
          show lookupM s1.namedLabels n = some i
          rw [setLabelToCurrentPosition_namedLabels lid s s1 hsl]
          exact hl
  | appendLabelReference lid =>
      have h2 := appendLabelReference_namedLabels lid s s' h
      rw [h2]
      exact hl
  | newLabelId =>
      replace h := Option.some_inj.mp h
      rw [← h]
      exact hl
  | namedLabel name2 =>
      simp only [applyOp] at h
      rw [namedLabel] at h
      by_cases hn : name2 = ""
      · rw [if_pos hn] at h
        simp at h
      · rw [if_neg hn] at h
        cases hl2 : lookupM s.namedLabels name2 with
        | some j =>
            rw [hl2] at h
            replace h := Option.some_inj.mp h
            rw [← h]
            exact hl
        | none =>
            rw [hl2] at h
            replace h := Option.some_inj.mp h
            rw [← h]
            show lookupM (insertM s.namedLabels name2 s.nextLabelId) n = some i
            have hne : n ≠ name2 := by
              intro hcon
              rw [hcon] at hl
              rw [hl] at hl2
              exact absurd hl2 (by simp)
            rw [lookupM_insertM_ne _ _ _ _ hne]
            exact hl
  | appendLinkerSymbol name2 => simp [applyOp, appendLinkerSymbol] at h
  | appendJump d =>
      have h2 := appendJump_namedLabels d s s' h
      rw [h2]
      exact hl
  | appendJumpOut d =>
      have h2 := appendJump_namedLabels d s s' h
      rw [h2]
      exact hl
  | appendJumpTo lid d =>
      simp only [applyOp] at h
      rw [appendJumpTo] at h
      by_cases he : s.evm15
      · rw [if_pos he] at h
        replace h := Option.some_inj.mp h
        rw [← h]
        exact hl
      · rw [if_neg he] at h
        cases hr : appendLabelReference lid s with
        | none => rw [hr] at h; simp at h
        | some s1 =>
            rw [hr] at h
            have h2 := appendJump_namedLabels d s1 s' h
            rw [h2, appendLabelReference_namedLabels lid s s1 hr]
            exact hl
  | appendJumpToIf lid =>
      simp only [applyOp] at h
      rw [appendJumpToIf] at h
      by_cases he : s.evm15
      · rw [if_pos he] at h
        replace h := Option.some_inj.mp h
        rw [← h]
        exact hl
      · rw [if_neg he] at h
        cases hr : appendLabelReference lid s with
        | none => rw [hr] at h; simp at h
        | some s1 =>
            rw [hr] at h
            replace h := Option.some_inj.mp h
            rw [← h]
            show lookupM s1.namedLabels n = some i
            rw [appendLabelReference_namedLabels lid s s1 hr]
            exact hl
  | appendBeginsub lid a =>
      simp only [applyOp] at h
      rw [appendBeginsub] at h
      by_cases he : !s.evm15
      · rw [if_pos he] at h
        simp at h
      · rw [if_neg he] at h
        by_cases ha : a < 0
        · rw [if_pos ha] at h
          simp at h
        · rw [if_neg ha] at h
          cases hsl : setLabelToCurrentPosition lid s with
          | none => rw [hsl] at h; simp at h
          | some s1 =>
              rw [hsl] at h
              replace h := Option.some_inj.mp h
              rw [← h]
              show lookupM s1.namedLabels n = some i
              rw [setLabelToCurrentPosition_namedLabels lid s s1 hsl]
              exact hl
  | appendJumpsub lid a r =>
      simp only [applyOp] at h
      rw [appendJumpsub] at h
      by_cases he : !s.evm15
      · rw [if_pos he] at h
        simp at h
      · rw [if_neg he] at h
        by_cases ha : a < 0 ∨ r < 0
        · rw [if_pos ha] at h
          simp at h
        · rw [if_neg ha] at h
          replace h := Option.some_inj.mp h
          rw [← h]
          exact hl
  | appendReturnsub r d =>
      simp only [applyOp] at h
      rw [appendReturnsub] at h
      by_cases he : !s.evm15
      · rw [if_pos he] at h
        simp at h
      · rw [if_neg he] at h
        by_cases hr : r < 0
        · rw [if_pos hr] at h
          simp at h
        · rw [if_neg hr] at h
          replace h := Option.some_inj.mp h
          rw [← h]
          exact hl
  | appendAssemblySize =>
      simp only [applyOp] at h
      rw [appendAssemblySize] at h
      have hpi : pushInstruction assemblySizeReferenceSize =
          some (Instruction.PUSH 4) := rfl
      rw [hpi] at h
      replace h := Option.some_inj.mp h
      rw [← h]
      exact hl
  | createSubAssembly => simp [applyOp, createSubAssembly] at h
  | appendDataOffset sub => simp [applyOp, appendDataOffset] at h
  | appendDataSize sub => simp [applyOp, appendDataSize] at h
  | appendData d => simp [applyOp, appendData] at h

theorem run_namedLabels (ops : List Op) (s s' : EVMAssembly)
    (h : run ops s = some s') (n : String) (i : Nat)
    (hl : lookupM s.namedLabels n = some i) :
    lookupM s'.namedLabels n = some i := by
  induction ops generalizing s with
  | nil =>
      replace h := Option.some_inj.mp h
      rw [← h]
      exact hl
  | cons op ops ih =>
      rw [run] at h
      cases happ : applyOp op s with
      | none => rw [happ] at h; simp at h
      | some s1 =>
          rw [happ] at h
          exact ih s1 h (applyOp_namedLabels op s s1 happ n i hl)

theorem patchSizeRefs_length (rs : List Nat) (sz : Nat) (b b' : List Nat)
    (h : patchSizeRefs rs sz b = some b') : b'.length = b.length := by
  induction rs generalizing b with
  | nil =>
      rw [patchSizeRefs] at h
      rw [← Option.some_inj.mp h]
  | cons r rs ih =>
      rw [patchSizeRefs] at h
      cases hu : updateReference r assemblySizeReferenceSize sz b with
      | none => rw [hu] at h; simp at h
      | some b1 =>
          rw [hu] at h
          have h1 := updateReference_length _ _ _ _ _ hu
          have h2 := ih b1 h
          omega

theorem patchSizeRefs_frame (rs : List Nat) (sz : Nat) (b b' : List Nat)
    (h : patchSizeRefs rs sz b = some b') (j : Nat)
    (hj : ∀ r ∈ rs, j < r ∨ r + 4 ≤ j) : b'[j]? = b[j]? := by
  induction rs generalizing b with
  | nil =>
      rw [patchSizeRefs] at h
      rw [← Option.some_inj.mp h]
  | cons r rs ih =>
      rw [patchSizeRefs] at h
      cases hu : updateReference r assemblySizeReferenceSize sz b with
      | none => rw [hu] at h; simp at h
      | some b1 =>
          rw [hu] at h
          have h1 := updateReference_frame _ _ _ _ _ hu j (hj r (by simp))
          rw [ih b1 h (fun r2 hr2 => hj r2 (by simp [hr2])), h1]

theorem patchSizeRefs_readBE (rs : List Nat) (sz : Nat) (b b' : List Nat)
    (h : patchSizeRefs rs sz b = some b')
    (hd : rs.Pairwise windowsDisjoint) :
    ∀ r ∈ rs, readBE b' r 4 = sz := by
  induction rs generalizing b with
  | nil =>
      intro r hr
      exact absurd hr (by simp)
  | cons r0 rs ih =>
      rw [patchSizeRefs] at h
      cases hu : updateReference r0 assemblySizeReferenceSize sz b with
      | none => rw [hu] at h; simp at h
      | some b1 =>
          rw [hu] at h
          rw [List.pairwise_cons] at hd
          intro r hr
          rcases List.mem_cons.mp hr with h1 | h1
          · subst h1
            have hhit := updateReference_readBE _ _ _ _ _ hu
            have hframe : ∀ j, r ≤ j → j < r + 4 → b'[j]? = b1[j]? := by
              intro j hj1 hj2
              refine patchSizeRefs_frame rs sz b1 b' h j ?_
              intro r2 hr2
              have hdj := hd.1 r2 hr2
              rw [windowsDisjoint] at hdj
              omega
            rw [readBE_congr b1 b' r 4 hframe]
            exact hhit
          · exact ih b1 h hd.2 r h1

theorem patchSizeRefs_total (rs : List Nat) (sz : Nat) (b : List Nat)
    (hb : ∀ r ∈ rs, r + 4 ≤ b.length) (hv : sz < 2 ^ 32) :
    ∃ b', patchSizeRefs rs sz b = some b' := by
  induction rs generalizing b with
  | nil => exact ⟨b, rfl⟩
  | cons r rs ih =>
      have hu : updateReference r 4 sz b =
          some (setBytes b r (toBigEndian 4 sz)) :=
        updateReference_eq_some r 4 sz b (hb r (by simp)) hv
      rw [patchSizeRefs, assemblySizeReferenceSize, hu]
      have hlen : (setBytes b r (toBigEndian 4 sz)).length = b.length :=
        setBytes_length _ _ _
      obtain ⟨b', hb'⟩ := ih (setBytes b r (toBigEndian 4 sz))
        (fun r2 hr2 => by rw [hlen]; exact hb r2 (by simp [hr2]))
      exact ⟨b', hb'⟩

theorem patchSizeRefs_inv (rs : List Nat) (sz : Nat) (b b' : List Nat)
    (h : patchSizeRefs rs sz b = some b') :
    ∀ r ∈ rs, r + 4 ≤ b.length ∧ sz < 2 ^ 32 := by
  induction rs generalizing b with
  | nil =>
      intro r hr
      exact absurd hr (by simp)
  | cons r0 rs ih =>
      rw [patchSizeRefs] at h
      cases hu : updateReference r0 assemblySizeReferenceSize sz b with
      | none => rw [hu] at h; simp at h
      | some b1 =>
          rw [hu] at h
          obtain ⟨h1, h2, -⟩ := updateReference_some_inv _ _ _ _ _ hu
          intro r hr
          rcases List.mem_cons.mp hr with h3 | h3
          · subst h3
            exact ⟨h1, h2⟩
          · obtain ⟨h6, h7⟩ := ih b1 h r h3
            have h5 := updateReference_length _ _ _ _ _ hu
            exact ⟨by omega, h7⟩

theorem patchLabelRefs_length (rs : List (Nat × Nat))
    (lp : List (Nat × Option Nat)) (b b' : List Nat)
    (h : patchLabelRefs rs lp b = some b') : b'.length = b.length := by
  induction rs generalizing b with
  | nil =>
      rw [patchLabelRefs] at h
      rw [← Option.some_inj.mp h]
  | cons p0 rs ih =>
      obtain ⟨r0, lid0⟩ := p0
      rw [patchLabelRefs] at h
      cases hlk : lookupM lp lid0 with
      | none => rw [hlk] at h; simp at h
      | some sentinel =>
          rw [hlk] at h
          cases sentinel with
          | none => simp at h
          | some q0 =>
              simp only [Option.bind_eq_bind, Option.some_bind] at h
              cases hu : updateReference r0 labelReferenceSize q0 b with
              | none => rw [hu] at h; simp at h
              | some b1 =>
                  rw [hu] at h
                  have h1 := updateReference_length _ _ _ _ _ hu
                  have h2 := ih b1 h
                  omega

theorem patchLabelRefs_frame (rs : List (Nat × Nat))
    (lp : List (Nat × Option Nat)) (b b' : List Nat)
    (h : patchLabelRefs rs lp b = some b') (j : Nat)
    (hj : ∀ p ∈ rs, j < p.1 ∨ p.1 + 4 ≤ j) : b'[j]? = b[j]? := by
  induction rs generalizing b with
  | nil =>
      rw [patchLabelRefs] at h
      rw [← Option.some_inj.mp h]
  | cons p0 rs ih =>
      obtain ⟨r0, lid0⟩ := p0
      rw [patchLabelRefs] at h
      cases hlk : lookupM lp lid0 with
      | none => rw [hlk] at h; simp at h
      | some sentinel =>
          rw [hlk] at h
          cases sentinel with
          | none => simp at h
          | some q0 =>
              simp only [Option.bind_eq_bind, Option.some_bind] at h
              cases hu : updateReference r0 labelReferenceSize q0 b with
              | none => rw [hu] at h; simp at h
              | some b1 =>
                  rw [hu] at h
                  have h1 := updateReference_frame _ _ _ _ _ hu j
                    (hj (r0, lid0) (by simp))
                  rw [ih b1 h (fun p2 hp2 => hj p2 (by simp [hp2])), h1]

theorem patchLabelRefs_readBE (rs : List (Nat × Nat))
    (lp : List (Nat × Option Nat)) (b b' : List Nat)
    (h : patchLabelRefs rs lp b = some b')
    (hd : (rs.map Prod.fst).Pairwise windowsDisjoint) :
    ∀ p ∈ rs, ∃ q, lookupM lp p.2 = some (some q) ∧ readBE b' p.1 4 = q := by
  induction rs generalizing b with
  | nil =>
      intro p hp
      exact absurd hp (by simp)
  | cons p0 rs ih =>
      obtain ⟨r0, lid0⟩ := p0
      rw [patchLabelRefs] at h
      cases hlk : lookupM lp lid0 with
      | none => rw [hlk] at h; simp at h
      | some sentinel =>
          rw [hlk] at h
          cases sentinel with
          | none => simp at h
          | some q0 =>
              simp only [Option.bind_eq_bind, Option.some_bind] at h
              cases hu : updateReference r0 labelReferenceSize q0 b with
              | none => rw [hu] at h; simp at h
              | some b1 =>
                  rw [hu] at h
                  rw [List.map_cons, List.pairwise_cons] at hd
                  intro p hp
                  rcases List.mem_cons.mp hp with h1 | h1
                  · subst h1
                    refine ⟨q0, hlk, ?_⟩
                    have hhit := updateReference_readBE _ _ _ _ _ hu
                    have hframe : ∀ j, r0 ≤ j → j < r0 + 4 →
                        b'[j]? = b1[j]? := by
                      intro j hj1 hj2
                      refine patchLabelRefs_frame rs lp b1 b' h j ?_
                      intro p2 hp2
                      have hdj := hd.1 p2.1 (List.mem_map_of_mem Prod.fst hp2)
                      rw [windowsDisjoint] at hdj
                      omega
                    rw [readBE_congr b1 b' r0 4 hframe]
                    exact hhit
                  · exact ih b1 h hd.2 p h1

theorem patchLabelRefs_total (rs : List (Nat × Nat))
    (lp : List (Nat × Option Nat)) (b : List Nat)
    (hb : ∀ p ∈ rs, p.1 + 4 ≤ b.length)
    (hres : ∀ p ∈ rs, ∃ q, lookupM lp p.2 = some (some q) ∧ q < 2 ^ 32) :
    ∃ b', patchLabelRefs rs lp b = some b' := by
  induction rs generalizing b with
  | nil => exact ⟨b, rfl⟩
  | cons p0 rs ih =>
      obtain ⟨r0, lid0⟩ := p0
      obtain ⟨q0, hlk, hq0⟩ := hres (r0, lid0) (by simp)
      have hu : updateReference r0 4 q0 b =
          some (setBytes b r0 (toBigEndian 4 q0)) :=
        updateReference_eq_some r0 4 q0 b (hb (r0, lid0) (by simp)) hq0
      rw [patchLabelRefs, hlk, labelReferenceSize]
      simp only [Option.bind_eq_bind, Option.some_bind]
      rw [hu]
      have hlen : (setBytes b r0 (toBigEndian 4 q0)).length = b.length :=
        setBytes_length _ _ _
      obtain ⟨b', hb'⟩ := ih (setBytes b r0 (toBigEndian 4 q0))
        (fun p2 hp2 => by rw [hlen]; exact hb p2 (by simp [hp2]))
        (fun p2 hp2 => hres p2 (by simp [hp2]))
      exact ⟨b', hb'⟩

theorem patchLabelRefs_inv (rs : List (Nat × Nat))
    (lp : List (Nat × Option Nat)) (b b' : List Nat)
    (h : patchLabelRefs rs lp b = some b') :
    ∀ p ∈ rs, ∃ q, lookupM lp p.2 = some (some q) ∧ q < 2 ^ 32 ∧
      p.1 + 4 ≤ b.length := by
  induction rs generalizing b with
  | nil =>
      intro p hp
      exact absurd hp (by simp)
  | cons p0 rs ih =>
      obtain ⟨r0, lid0⟩ := p0
      rw [patchLabelRefs] at h
      cases hlk : lookupM lp lid0 with
      | none => rw [hlk] at h; simp at h
      | some sentinel =>
          rw [hlk] at h
          cases sentinel with
          | none => simp at h
          | some q0 =>
              simp only [Option.bind_eq_bind, Option.some_bind] at h
              cases hu : updateReference r0 labelReferenceSize q0 b with
              | none => rw [hu] at h; simp at h
              | some b1 =>
                  rw [hu] at h
                  obtain ⟨h1, h2, -⟩ := updateReference_some_inv _ _ _ _ _ hu
                  intro p hp
                  rcases List.mem_cons.mp hp with h3 | h3
                  · subst h3
                    exact ⟨q0, hlk, h2, h1⟩
                  · obtain ⟨q2, hq2, hq3, hq4⟩ := ih b1 h p h3
                    have h5 := updateReference_length _ _ _ _ _ hu
                    exact ⟨q2, hq2, hq3, by omega⟩

/-- If some pending label reference targets a label whose entry is the
unresolved sentinel, the label-patch loop fails fatally. -/
theorem patchLabelRefs_unresolved (rs : List (Nat × Nat))
    (lp : List (Nat × Option Nat)) (b : List Nat) (r lid : Nat)
    (hmem : (r, lid) ∈ rs) (hunres : lookupM lp lid = some none) :
    patchLabelRefs rs lp b = none := by
  induction rs generalizing b with
  | nil => exact absurd hmem (by simp)
  | cons p0 rs ih =>
      obtain ⟨r0, lid0⟩ := p0
      rw [patchLabelRefs]
      rcases List.mem_cons.mp hmem with h1 | h1
      · have h2 : lid0 = lid := congrArg Prod.snd h1.symm
        rw [h2, hunres]
        rfl
      · cases hlk : lookupM lp lid0 with
        | none => rfl
        | some sentinel =>
            cases sentinel with
            | none => rfl
            | some q0 =>
                simp only [Option.bind_eq_bind, Option.some_bind]
                cases hu : updateReference r0 labelReferenceSize q0 b with
                | none => rfl
                | some b1 => exact ih b1 h1

theorem finalize_eq (s : EVMAssembly) :
    finalize s = Option.bind
      (patchSizeRefs s.assemblySizePositions s.bytecode.length s.bytecode)
      (fun b1 => Option.bind
        (patchLabelRefs s.labelReferences s.labelPositions b1)
        (fun b2 => some (⟨b2⟩, { s with bytecode := b2 }))) := rfl

theorem finalize_some_inv (s : EVMAssembly) (out : LinkerObject)
    (s₂ : EVMAssembly) (h : finalize s = some (out, s₂)) :
    ∃ b1 b2,
      patchSizeRefs s.assemblySizePositions s.bytecode.length s.bytecode =
        some b1 ∧
      patchLabelRefs s.labelReferences s.labelPositions b1 = some b2 ∧
      out = ⟨b2⟩ ∧ s₂ = { s with bytecode := b2 } := by
  rw [finalize_eq] at h
  cases h1 : patchSizeRefs s.assemblySizePositions s.bytecode.length
      s.bytecode with
  | none => rw [h1] at h; simp at h
  | some b1 =>
      rw [h1] at h
      simp only [Option.some_bind] at h
      cases h2 : patchLabelRefs s.labelReferences s.labelPositions b1 with
      | none => rw [h2] at h; simp at h
      | some b2 =>
          rw [h2] at h
          simp only [Option.some_bind, Option.some_inj] at h
          rw [Prod.mk.injEq] at h
          exact ⟨b1, b2, rfl, h2, h.1.symm, h.2.symm⟩

/-- Reapplying the size-patch loop to any equally long buffer succeeds
(the asserts depend only on the length and the patch value). -/
theorem patchSizeRefs_total_of_prev (rs : List Nat) (sz : Nat)
    (b b1 c : List Nat) (h : patchSizeRefs rs sz b = some b1)
    (hlen : c.length = b.length) :
    ∃ c1, patchSizeRefs rs sz c = some c1 ∧ c1.length = c.length := by
  induction rs generalizing b c with
  | nil => exact ⟨c, rfl, rfl⟩
  | cons r rs ih =>
      rw [patchSizeRefs] at h
      cases hu : updateReference r assemblySizeReferenceSize sz b with
      | none => rw [hu] at h; simp at h
      | some d =>
          rw [hu] at h
          obtain ⟨hb1, hb2, -⟩ := updateReference_some_inv _ _ _ _ _ hu
          have hb1' : r + 4 ≤ b.length := hb1
          have hu2 : updateReference r 4 sz c =
              some (setBytes c r (toBigEndian 4 sz)) :=
            updateReference_eq_some r 4 sz c (by omega) hb2
          rw [patchSizeRefs, assemblySizeReferenceSize, hu2]
          have hc : (setBytes c r (toBigEndian 4 sz)).length = d.length := by
            rw [setBytes_length]
            have := updateReference_length _ _ _ _ _ hu
            omega
          obtain ⟨c1, hc1, hc2⟩ := ih d (setBytes c r (toBigEndian 4 sz)) h hc
          refine ⟨c1, hc1, ?_⟩
          rw [hc2, setBytes_length]

/-- Reapplying the label-patch loop to any equally long buffer succeeds
(the label table is unchanged and the asserts depend only on the
length). -/
theorem patchLabelRefs_total_of_prev (rs : List (Nat × Nat))
    (lp : List (Nat × Option Nat)) (b b1 c : List Nat)
    (h : patchLabelRefs rs lp b = some b1) (hlen : c.length = b.length) :
    ∃ c1, patchLabelRefs rs lp c = some c1 ∧ c1.length = c.length := by
  induction rs generalizing b c with
  | nil => exact ⟨c, rfl, rfl⟩
  | cons p0 rs ih =>
      obtain ⟨r0, lid0⟩ := p0
      rw [patchLabelRefs] at h
      cases hlk : lookupM lp lid0 with
      | none => rw [hlk] at h; simp at h
      | some sentinel =>
          rw [hlk] at h
          cases sentinel with
          | none => simp at h
          | some q0 =>
              simp only [Option.bind_eq_bind, Option.some_bind] at h
              cases hu : updateReference r0 labelReferenceSize q0 b with
              | none => rw [hu] at h; simp at h
              | some d =>
                  rw [hu] at h
                  obtain ⟨hb1, hb2, -⟩ := updateReference_some_inv _ _ _ _ _ hu
                  have hb1' : r0 + 4 ≤ b.length := hb1
                  have hu2 : updateReference r0 4 q0 c =
                      some (setBytes c r0 (toBigEndian 4 q0)) :=
                    updateReference_eq_some r0 4 q0 c (by omega) hb2
                  rw [patchLabelRefs, hlk, labelReferenceSize]
                  simp only [Option.bind_eq_bind, Option.some_bind]
                  rw [hu2]
                  have hc : (setBytes c r0 (toBigEndian 4 q0)).length =
                      d.length := by
                    rw [setBytes_length]
                    have := updateReference_length _ _ _ _ _ hu
                    omega
                  obtain ⟨c1, hc1, hc2⟩ :=
                    ih d (setBytes c r0 (toBigEndian 4 q0)) h hc
                  refine ⟨c1, hc1, ?_⟩
                  rw [hc2, setBytes_length]

theorem wf_split (s : EVMAssembly) (hw : WF s) :
    (s.labelReferences.map Prod.fst).Pairwise windowsDisjoint ∧
    s.assemblySizePositions.Pairwise windowsDisjoint ∧
    ∀ a ∈ s.labelReferences.map Prod.fst, ∀ c ∈ s.assemblySizePositions,
      windowsDisjoint a c := by
  have hd := hw.disjointRefs
  rw [refOffsets] at hd
  exact List.pairwise_append.mp hd

/-- Claim C1: for every emission sequence (any run from a fresh assembly
in either mode) whose `finalize` completes — which requires every
referenced label to have been resolved, exactly once, before the call —
the four bytes of the output at each pending label-reference offset,
read as a big-endian integer, are exactly the buffer offset recorded
when the referenced label was resolved. -/
theorem finalize_label_roundtrip (m : Bool) (ops : List Op)
    (s s₂ : EVMAssembly) (out : LinkerObject) (r lid : Nat)
    (hrun : run ops (initialAssembly m) = some s)
    (hfin : finalize s = some (out, s₂))
    (href : (r, lid) ∈ s.labelReferences) :
    ∃ p, lookupM s.labelPositions lid = some (some p) ∧
      readBE out.bytecode r 4 = p := by
  have hw := wf_run ops (initialAssembly m) s hrun (wf_initialAssembly m)
  obtain ⟨b1, b2, h1, h2, hout, -⟩ := finalize_some_inv s out s₂ hfin
  obtain ⟨hdL, -, -⟩ := wf_split s hw
  obtain ⟨q, hq1, hq2⟩ :=
    patchLabelRefs_readBE s.labelReferences s.labelPositions b1 b2 h2 hdL
      (r, lid) href
  refine ⟨q, hq1, ?_⟩
  rw [hout]
  exact hq2

/-- Claim C2 (amended): finalize fails fatally whenever some pending
label reference targets a label that was allocated but never resolved
(the `size_t(-1)` sentinel is still in place).  An allocated but
unresolved label that is never referenced does not make finalize fail;
see the counterexample. -/
theorem finalize_unresolved_referenced (m : Bool) (ops : List Op)
    (s : EVMAssembly) (r lid : Nat)
    (_hrun : run ops (initialAssembly m) = some s)
    (href : (r, lid) ∈ s.labelReferences)
    (hunres : lookupM s.labelPositions lid = some none) :
    finalize s = none := by
  rw [finalize_eq]
  cases h1 : patchSizeRefs s.assemblySizePositions s.bytecode.length
      s.bytecode with
  | none => rfl
  | some b1 =>
      simp only [Option.some_bind]
      rw [patchLabelRefs_unresolved s.labelReferences s.labelPositions b1
        r lid href hunres]
      rfl

/-- Claim C3: after finalize, every assembly-size reference decodes (as
a 4-byte big-endian integer) to the final buffer length — which the
patch loops leave equal to the pre-finalize buffer length, not to the
length at the moment the reference was emitted. -/
theorem finalize_size_reference (m : Bool) (ops : List Op)
    (s s₂ : EVMAssembly) (out : LinkerObject) (r : Nat)
    (hrun : run ops (initialAssembly m) = some s)
    (hfin : finalize s = some (out, s₂))
    (hpos : r ∈ s.assemblySizePositions) :
    readBE out.bytecode r 4 = out.bytecode.length ∧
      out.bytecode.length = s.bytecode.length := by
  have hw := wf_run ops (initialAssembly m) s hrun (wf_initialAssembly m)
  obtain ⟨b1, b2, h1, h2, hout, -⟩ := finalize_some_inv s out s₂ hfin
  obtain ⟨-, hdS, hcross⟩ := wf_split s hw
  have hhit : readBE b1 r 4 = s.bytecode.length :=
    patchSizeRefs_readBE _ _ _ _ h1 hdS r hpos
  have hframe : ∀ j, r ≤ j → j < r + 4 → b2[j]? = b1[j]? := by
    intro j hj1 hj2
    refine patchLabelRefs_frame _ _ _ _ h2 j ?_
    intro p hp
    have hdj := hcross p.1 (List.mem_map_of_mem Prod.fst hp) r hpos
    rw [windowsDisjoint] at hdj
    omega
  have hread : readBE b2 r 4 = s.bytecode.length := by
    rw [readBE_congr b1 b2 r 4 hframe]
    exact hhit
  have hlen1 := patchSizeRefs_length _ _ _ _ h1
  have hlen2 := patchLabelRefs_length _ _ _ _ h2
  rw [hout]
  constructor
  · show readBE b2 r 4 = b2.length
    rw [hread]
    omega
  · show b2.length = s.bytecode.length
    omega

/-- Claim C5: on any reachable assembly in which every pending label
reference targets a resolved label and the buffer is shorter than
`2^32` bytes, the two fatal preconditions of `updateReference` hold for
every patched reference, i.e. finalize completes without any assertion
failure. -/
theorem finalize_no_assert_failure (m : Bool) (ops : List Op)
    (s : EVMAssembly)
    (hrun : run ops (initialAssembly m) = some s)
    (hres : ∀ p ∈ s.labelReferences,
      ∃ q, lookupM s.labelPositions p.2 = some (some q))
    (hlen : s.bytecode.length < 2 ^ 32) :
    ∃ out s₂, finalize s = some (out, s₂) := by
  have hw := wf_run ops (initialAssembly m) s hrun (wf_initialAssembly m)
  have hbS : ∀ r ∈ s.assemblySizePositions, r + 4 ≤ s.bytecode.length :=
    fun r hr => hw.bounded r (List.mem_append_right _ hr)
  obtain ⟨b1, h1⟩ := patchSizeRefs_total s.assemblySizePositions
    s.bytecode.length s.bytecode hbS hlen
  have hl1 := patchSizeRefs_length _ _ _ _ h1
  have hbL : ∀ p ∈ s.labelReferences, p.1 + 4 ≤ b1.length := by
    intro p hp
    have := hw.bounded p.1
      (List.mem_append_left _ (List.mem_map_of_mem Prod.fst hp))
    omega
  have hresL : ∀ p ∈ s.labelReferences,
      ∃ q, lookupM s.labelPositions p.2 = some (some q) ∧ q < 2 ^ 32 := by
    intro p hp
    obtain ⟨q, hq⟩ := hres p hp
    refine ⟨q, hq, ?_⟩
    have hmem := lookupM_mem _ _ _ hq
    have := hw.posBounded (p.2, some q) hmem q rfl
    omega
  obtain ⟨b2, h2⟩ := patchLabelRefs_total s.labelReferences
    s.labelPositions b1 hbL hresL
  refine ⟨⟨b2⟩, { s with bytecode := b2 }, ?_⟩
  rw [finalize_eq, h1]
  simp only [Option.some_bind]
  rw [h2]
  rfl

/-- Claim C9 (amended): finalize does not move the instance into an
enforced terminal state.  After a successful finalize the patched
buffer stays in the instance, a second finalize succeeds again, and
emission operations are still accepted. -/
theorem finalize_no_terminal_state (s s₂ : EVMAssembly)
    (out : LinkerObject) (h : finalize s = some (out, s₂)) :
    (∃ out₂ s₃, finalize s₂ = some (out₂, s₃)) ∧
    ∀ i, applyOp (Op.appendInstruction i) s₂ =
      some (appendInstruction i s₂) := by
  obtain ⟨b1, b2, h1, h2, -, hs2⟩ := finalize_some_inv s out s₂ h
  have hl1 := patchSizeRefs_length _ _ _ _ h1
  have hl2 := patchLabelRefs_length _ _ _ _ h2
  subst hs2
  constructor
  · have hlenb2 : b2.length = s.bytecode.length := by omega
    obtain ⟨c1, hc1, hc1len⟩ := patchSizeRefs_total_of_prev
      s.assemblySizePositions s.bytecode.length s.bytecode b1 b2 h1 hlenb2
    have hc1len2 : c1.length = b1.length := by omega
    obtain ⟨c2, hc2, hc2len⟩ := patchLabelRefs_total_of_prev
      s.labelReferences s.labelPositions b1 b2 c1 h2 hc1len2
    refine ⟨⟨c2⟩, { s with bytecode := c2 }, ?_⟩
    rw [finalize_eq]
    show Option.bind (patchSizeRefs s.assemblySizePositions b2.length b2)
      (fun d1 => Option.bind
        (patchLabelRefs s.labelReferences s.labelPositions d1)
        (fun d2 => some (LinkerObject.mk d2, { s with bytecode := d2 }))) =
      some (LinkerObject.mk c2, { s with bytecode := c2 })
    rw [hlenb2, hc1]
    simp only [Option.some_bind]
    rw [hc2]
    rfl
  · intro i
    rfl

/-- Claim C4: `appendJumpToIf` always succeeds and changes the tracked
stack height by exactly −1, in both modes: in EVM1.5 mode through the
explicit decrement, in legacy mode as the net of the push-reference
arity (+1) and the `JUMPI` arity (−2). -/
theorem appendJumpToIf_stackHeight (lid : Nat) (s : EVMAssembly) :
    ∃ s', appendJumpToIf lid s = some s' ∧
      s'.stackHeight = s.stackHeight - 1 := by
  by_cases he : s.evm15 = true
  · rw [appendJumpToIf, if_pos he]
    refine ⟨_, rfl, ?_⟩
    show s.stackHeight - 1 = s.stackHeight - 1
    rfl
  · rw [appendJumpToIf, if_neg he, appendLabelReference, if_neg he]
    refine ⟨_, rfl, ?_⟩
    show s.stackHeight + ((1 : Int) - 0) + ((0 : Int) - 2) =
      s.stackHeight - 1
    ring

/-- Claim C6: each legacy-only operation fails fatally in EVM1.5 mode
and each EVM1.5-only operation fails fatally in legacy mode, for every
label id and every caller-supplied argument; in the embedding the
failing call produces no successor state (the fatal assert precedes any
mutation in the source). -/
theorem mode_mismatch_fatal (s : EVMAssembly) (lid : Nat) (a r d : Int) :
    (s.evm15 = true →
      appendLabelReference lid s = none ∧ appendJump d s = none ∧
        appendJumpOut d s = none) ∧
    (s.evm15 = false →
      appendBeginsub lid a s = none ∧ appendJumpsub lid a r s = none ∧
        appendReturnsub r d s = none) := by
  constructor
  · intro he
    refine ⟨?_, ?_, ?_⟩
    · rw [appendLabelReference, if_pos he]
    · rw [appendJump, if_pos he]
    · rw [appendJumpOut, appendJump, if_pos he]
  · intro he
    have he2 : (!s.evm15) = true := by rw [he]; rfl
    refine ⟨?_, ?_, ?_⟩
    · rw [appendBeginsub, if_pos he2]
    · rw [appendJumpsub, if_pos he2]
    · rw [appendReturnsub, if_pos he2]

/-- Claim C7: `namedLabel` on a non-empty name is idempotent — after a
first call returned an id, any later call with the same name, even
after an arbitrary run of further emission operations, returns the very
same id and leaves the state untouched (no second allocation) — and
`namedLabel` on the empty name fails fatally. -/
theorem namedLabel_idempotent (s : EVMAssembly) (name : String)
    (id1 : Nat) (s1 : EVMAssembly) (ops : List Op) (s2 : EVMAssembly)
    (hne : name ≠ "")
    (h1 : namedLabel name s = some (id1, s1))
    (hrun : run ops s1 = some s2) :
    namedLabel name s2 = some (id1, s2) ∧ namedLabel "" s = none := by
  have hlook1 : lookupM s1.namedLabels name = some id1 := by
    rw [namedLabel, if_neg hne] at h1
    cases hl : lookupM s.namedLabels name with
    | some j =>
        rw [hl] at h1
        replace h1 := Option.some_inj.mp h1
        rw [Prod.mk.injEq] at h1
        rw [← h1.2, ← h1.1]
        exact hl
    | none =>
        rw [hl] at h1
        replace h1 := Option.some_inj.mp h1
        rw [Prod.mk.injEq] at h1
        rw [← h1.2, ← h1.1]
        show lookupM (insertM s.namedLabels name s.nextLabelId) name =
          some s.nextLabelId
        exact lookupM_insertM_self _ _ _
  have hlook2 : lookupM s2.namedLabels name = some id1 :=
    run_namedLabels ops s1 s2 hrun name id1 hlook1
  constructor
  · rw [namedLabel, if_neg hne, hlook2]
  · rw [namedLabel, if_pos rfl]

/-- Claim C8: `appendConstant` emits exactly the push opcode for the
minimal big-endian byte width `w` (at least 1, at most 32) that can
hold the constant, followed by the `w` big-endian bytes of the
constant, and raises the tracked stack height by exactly one. -/
theorem appendConstant_spec (s : EVMAssembly) (v : Nat)
    (h : v < 2 ^ 256) :
    ∃ w, 1 ≤ w ∧ w ≤ 32 ∧ v < 256 ^ w ∧
      (∀ u, 1 ≤ u → v < 256 ^ u → w ≤ u) ∧
      fromBigEndian (toBigEndian w v) = v ∧
      appendConstant v s = some { s with
        bytecode := s.bytecode ++
          instrByte (Instruction.PUSH w) :: toBigEndian w v,
        stackHeight := s.stackHeight + 1 } := by
  refine ⟨max 1 (byteLength v), le_max_left _ _, ?_, ?_, ?_, ?_, ?_⟩
  · have h32 : byteLength v ≤ 32 := by
      refine byteLength_minimal v 32 ?_
      have : (256 : Nat) ^ 32 = 2 ^ 256 := by norm_num
      omega
    omega
  · have := lt_pow_byteLength v
    have hmono : (256 : Nat) ^ byteLength v ≤ 256 ^ max 1 (byteLength v) :=
      Nat.pow_le_pow_right (by decide) (le_max_right _ _)
    omega
  · intro u hu huv
    have := byteLength_minimal v u huv
    omega
  · refine fromBigEndian_toBigEndian _ v ?_
    have := lt_pow_byteLength v
    have hmono : (256 : Nat) ^ byteLength v ≤ 256 ^ max 1 (byteLength v) :=
      Nat.pow_le_pow_right (by decide) (le_max_right _ _)
    omega
  · have h32 : byteLength v ≤ 32 := by
      refine byteLength_minimal v 32 ?_
      have : (256 : Nat) ^ 32 = 2 ^ 256 := by norm_num
      omega
    have hdatalen : (toCompactBigEndian v 1).length = max 1 (byteLength v) := by
      rw [toCompactBigEndian, toBigEndian_length]
    have hpi : pushInstruction (toCompactBigEndian v 1).length =
        some (Instruction.PUSH (max 1 (byteLength v))) := by
      rw [hdatalen, pushInstruction, if_pos (by omega)]
    rw [appendConstant, hpi]
    simp only [Option.bind_eq_bind, Option.some_bind, Option.pure_def,
      Option.some_inj]
    rw [EVMAssembly.mk.injEq]
    refine ⟨rfl, ?_, ?_, rfl, rfl, rfl, rfl, rfl⟩
    · show (s.bytecode ++ [instrByte (Instruction.PUSH (max 1 (byteLength v)))])
        ++ toCompactBigEndian v 1 = _
      rw [toCompactBigEndian, List.append_assoc]
      rfl
    · show s.stackHeight + ((1 : Int) - 0) = s.stackHeight + 1
      ring

/-- Claim C10: `setSourceLocation` is observably a no-op: it returns
the state unchanged, so the output buffer, the tracked stack height,
the label tables, and all pending references are identical before and
after the call. -/
theorem setSourceLocation_noop (loc : SourceLocation) (s : EVMAssembly) :
    setSourceLocation loc s = s ∧
    (setSourceLocation loc s).bytecode = s.bytecode ∧
    (setSourceLocation loc s).stackHeight = s.stackHeight ∧
    (setSourceLocation loc s).labelPositions = s.labelPositions ∧
    (setSourceLocation loc s).namedLabels = s.namedLabels ∧
    (setSourceLocation loc s).labelReferences = s.labelReferences ∧
    (setSourceLocation loc s).assemblySizePositions =
      s.assemblySizePositions :=
  ⟨rfl, rfl, rfl, rfl, rfl, rfl, rfl⟩

/-- Claim C1 witness: allocate label 0, emit a conditional jump to it in
legacy mode, resolve it; after finalize the four placeholder bytes at
offset 1 decode to 6, the offset of the `JUMPDEST`. -/
theorem finalize_label_roundtrip_witness :
    ∃ p, lookupM ([(0, some 6)] : List (Nat × Option Nat)) 0 =
        some (some p) ∧
      readBE [99, 0, 0, 0, 6, 87, 91] 1 4 = p :=
  finalize_label_roundtrip false
    [Op.newLabelId, Op.appendJumpToIf 0, Op.appendLabel 0]
    { evm15 := false, bytecode := [99, 0, 0, 0, 0, 87, 91],
      stackHeight := -1, labelPositions := [(0, some 6)],
      labelReferences := [(1, 0)], assemblySizePositions := [],
      namedLabels := [], nextLabelId := 1 }
    { evm15 := false, bytecode := [99, 0, 0, 0, 6, 87, 91],
      stackHeight := -1, labelPositions := [(0, some 6)],
      labelReferences := [(1, 0)], assemblySizePositions := [],
      namedLabels := [], nextLabelId := 1 }
    ⟨[99, 0, 0, 0, 6, 87, 91]⟩ 1 0 rfl rfl (by decide)

/-- Claim C2 counterexample: the emission sequence that only allocates
label 0 leaves it allocated and unresolved, yet finalize succeeds — the
code only checks labels that are actually referenced, so the claim as
stated is false. -/
theorem finalize_unresolved_unreferenced_succeeds :
    run [Op.newLabelId] (initialAssembly false) = some
      { evm15 := false, bytecode := [], stackHeight := 0,
        labelPositions := [(0, none)], labelReferences := [],
        assemblySizePositions := [], namedLabels := [],
        nextLabelId := 1 } ∧
    lookupM ([(0, none)] : List (Nat × Option Nat)) 0 = some none ∧
    finalize
      { evm15 := false, bytecode := [], stackHeight := 0,
        labelPositions := [(0, none)], labelReferences := [],
        assemblySizePositions := [], namedLabels := [],
        nextLabelId := 1 } =
      some (⟨[]⟩,
        { evm15 := false, bytecode := [], stackHeight := 0,
          labelPositions := [(0, none)], labelReferences := [],
          assemblySizePositions := [], namedLabels := [],
          nextLabelId := 1 }) :=
  ⟨rfl, rfl, rfl⟩

/-- Claim C2 witness (amended claim): a conditional jump referencing the
allocated-but-unresolved label 0 makes finalize fail fatally. -/
theorem finalize_unresolved_referenced_witness :
    finalize
      { evm15 := false, bytecode := [99, 0, 0, 0, 0, 87],
        stackHeight := -1, labelPositions := [(0, none)],
        labelReferences := [(1, 0)], assemblySizePositions := [],
        namedLabels := [], nextLabelId := 1 } = none :=
  finalize_unresolved_referenced false [Op.newLabelId, Op.appendJumpToIf 0]
    { evm15 := false, bytecode := [99, 0, 0, 0, 0, 87],
      stackHeight := -1, labelPositions := [(0, none)],
      labelReferences := [(1, 0)], assemblySizePositions := [],
      namedLabels := [], nextLabelId := 1 }
    1 0 rfl (by decide) rfl

/-- Claim C3 witness: one assembly-size reference emitted at offset 1;
the final buffer has 5 bytes and the patched bytes decode to 5, not to
the length 1 the buffer had when the reference was registered. -/
theorem finalize_size_reference_witness :
    readBE [99, 0, 0, 0, 5] 1 4 =
        ([99, 0, 0, 0, 5] : List Nat).length ∧
      ([99, 0, 0, 0, 5] : List Nat).length =
        ([99, 0, 0, 0, 0] : List Nat).length :=
  finalize_size_reference false [Op.appendAssemblySize]
    { evm15 := false, bytecode := [99, 0, 0, 0, 0], stackHeight := 1,
      labelPositions := [], labelReferences := [],
      assemblySizePositions := [1], namedLabels := [], nextLabelId := 0 }
    { evm15 := false, bytecode := [99, 0, 0, 0, 5], stackHeight := 1,
      labelPositions := [], labelReferences := [],
      assemblySizePositions := [1], namedLabels := [], nextLabelId := 0 }
    ⟨[99, 0, 0, 0, 5]⟩ 1 rfl rfl (by decide)

/-- Claim C5 witness: on the resolved-label example finalize completes
with no assertion failure. -/
theorem finalize_no_assert_failure_witness :
    ∃ out s₂, finalize
      { evm15 := false, bytecode := [99, 0, 0, 0, 0, 87, 91],
        stackHeight := -1, labelPositions := [(0, some 6)],
        labelReferences := [(1, 0)], assemblySizePositions := [],
        namedLabels := [], nextLabelId := 1 } = some (out, s₂) :=
  finalize_no_assert_failure false
    [Op.newLabelId, Op.appendJumpToIf 0, Op.appendLabel 0]
    { evm15 := false, bytecode := [99, 0, 0, 0, 0, 87, 91],
      stackHeight := -1, labelPositions := [(0, some 6)],
      labelReferences := [(1, 0)], assemblySizePositions := [],
      namedLabels := [], nextLabelId := 1 }
    rfl
    (fun p hp => by
      rw [List.mem_singleton.mp hp]
      exact ⟨6, rfl⟩)
    (by decide)

/-- Claim C6 witness: each legacy-only operation fails on a fresh
EVM1.5 assembly and each EVM1.5-only operation fails on a fresh legacy
assembly. -/
theorem mode_mismatch_fatal_witness :
    (appendLabelReference 0 (initialAssembly true) = none ∧
      appendJump 0 (initialAssembly true) = none ∧
      appendJumpOut 0 (initialAssembly true) = none) ∧
    (appendBeginsub 0 0 (initialAssembly false) = none ∧
      appendJumpsub 0 0 0 (initialAssembly false) = none ∧
      appendReturnsub 0 0 (initialAssembly false) = none) :=
  ⟨(mode_mismatch_fatal (initialAssembly true) 0 0 0 0).1 rfl,
    (mode_mismatch_fatal (initialAssembly false) 0 0 0 0).2 rfl⟩

/-- Claim C7 witness: after `namedLabel "x"` allocated id 0, a second
call returns id 0 with the state untouched, and the empty name is
fatal. -/
theorem namedLabel_idempotent_witness :
    namedLabel "x"
      { evm15 := false, bytecode := [], stackHeight := 0,
        labelPositions := [(0, none)], labelReferences := [],
        assemblySizePositions := [], namedLabels := [("x", 0)],
        nextLabelId := 1 } =
      some (0,
        { evm15 := false, bytecode := [], stackHeight := 0,
          labelPositions := [(0, none)], labelReferences := [],
          assemblySizePositions := [], namedLabels := [("x", 0)],
          nextLabelId := 1 }) ∧
    namedLabel "" (initialAssembly false) = none :=
  namedLabel_idempotent (initialAssembly false) "x" 0
    { evm15 := false, bytecode := [], stackHeight := 0,
      labelPositions := [(0, none)], labelReferences := [],
      assemblySizePositions := [], namedLabels := [("x", 0)],
      nextLabelId := 1 }
    []
    { evm15 := false, bytecode := [], stackHeight := 0,
      labelPositions := [(0, none)], labelReferences := [],
      assemblySizePositions := [], namedLabels := [("x", 0)],
      nextLabelId := 1 }
    (by decide) rfl rfl

/-- Claim C8 witness: the constant 258 = 0x0102 takes the minimal width
2, so `PUSH2` (byte 0x61) followed by `[1, 2]` is emitted and the stack
height rises by one. -/
theorem appendConstant_spec_witness :
    ∃ w, 1 ≤ w ∧ w ≤ 32 ∧ 258 < 256 ^ w ∧
      (∀ u, 1 ≤ u → 258 < 256 ^ u → w ≤ u) ∧
      fromBigEndian (toBigEndian w 258) = 258 ∧
      appendConstant 258 (initialAssembly false) = some
        { initialAssembly false with
          bytecode := (initialAssembly false).bytecode ++
            instrByte (Instruction.PUSH w) :: toBigEndian w 258,
          stackHeight := (initialAssembly false).stackHeight + 1 } :=
  appendConstant_spec (initialAssembly false) 258 (by norm_num)

/-- Claim C9 counterexample: on the resolved-label example, the first
finalize succeeds, a second finalize on the resulting instance succeeds
again with the same object, and an emission operation is still
accepted afterward — the code enforces no terminal Finalized state. -/
theorem finalize_repeat_and_emit_accepted :
    finalize
      { evm15 := false, bytecode := [99, 0, 0, 0, 0, 87, 91],
        stackHeight := -1, labelPositions := [(0, some 6)],
        labelReferences := [(1, 0)], assemblySizePositions := [],
        namedLabels := [], nextLabelId := 1 } =
      some (⟨[99, 0, 0, 0, 6, 87, 91]⟩,
        { evm15 := false, bytecode := [99, 0, 0, 0, 6, 87, 91],
          stackHeight := -1, labelPositions := [(0, some 6)],
          labelReferences := [(1, 0)], assemblySizePositions := [],
          namedLabels := [], nextLabelId := 1 }) ∧
    finalize
      { evm15 := false, bytecode := [99, 0, 0, 0, 6, 87, 91],
        stackHeight := -1, labelPositions := [(0, some 6)],
        labelReferences := [(1, 0)], assemblySizePositions := [],
        namedLabels := [], nextLabelId := 1 } =
      some (⟨[99, 0, 0, 0, 6, 87, 91]⟩,
        { evm15 := false, bytecode := [99, 0, 0, 0, 6, 87, 91],
          stackHeight := -1, labelPositions := [(0, some 6)],
          labelReferences := [(1, 0)], assemblySizePositions := [],
          namedLabels := [], nextLabelId := 1 }) ∧
    applyOp (Op.appendInstruction Instruction.JUMPDEST)
      { evm15 := false, bytecode := [99, 0, 0, 0, 6, 87, 91],
        stackHeight := -1, labelPositions := [(0, some 6)],
        labelReferences := [(1, 0)], assemblySizePositions := [],
        namedLabels := [], nextLabelId := 1 } =
      some
        { evm15 := false, bytecode := [99, 0, 0, 0, 6, 87, 91, 91],
          stackHeight := -1, labelPositions := [(0, some 6)],
          labelReferences := [(1, 0)], assemblySizePositions := [],
          namedLabels := [], nextLabelId := 1 } :=
  ⟨rfl, rfl, rfl⟩

/-- Claim C9 witness (amended claim): applied to the resolved-label
example. -/
theorem finalize_no_terminal_state_witness :
    (∃ out₂ s₃, finalize
      { evm15 := false, bytecode := [99, 0, 0, 0, 6, 87, 91],
        stackHeight := -1, labelPositions := [(0, some 6)],
        labelReferences := [(1, 0)], assemblySizePositions := [],
        namedLabels := [], nextLabelId := 1 } = some (out₂, s₃)) ∧
    ∀ i, applyOp (Op.appendInstruction i)
      { evm15 := false, bytecode := [99, 0, 0, 0, 6, 87, 91],
        stackHeight := -1, labelPositions := [(0, some 6)],
        labelReferences := [(1, 0)], assemblySizePositions := [],
        namedLabels := [], nextLabelId := 1 } =
      some (appendInstruction i
        { evm15 := false, bytecode := [99, 0, 0, 0, 6, 87, 91],
          stackHeight := -1, labelPositions := [(0, some 6)],
          labelReferences := [(1, 0)], assemblySizePositions := [],
          namedLabels := [], nextLabelId := 1 }) :=
  finalize_no_terminal_state
    { evm15 := false, bytecode := [99, 0, 0, 0, 0, 87, 91],
      stackHeight := -1, labelPositions := [(0, some 6)],
      labelReferences := [(1, 0)], assemblySizePositions := [],
      namedLabels := [], nextLabelId := 1 }
    { evm15 := false, bytecode := [99, 0, 0, 0, 6, 87, 91],
      stackHeight := -1, labelPositions := [(0, some 6)],
      labelReferences := [(1, 0)], assemblySizePositions := [],
      namedLabels := [], nextLabelId := 1 }
    ⟨[99, 0, 0, 0, 6, 87, 91]⟩ rfl
